import Mathlib

/-!
# Registration of two colour images by translation (`tcregistration.c`)

A shallow embedding of `src/src/tcregistration.c` and the properties proved about it.

Modelling conventions.

* A floating-point value (`float`, `double`, `long double`) is an `Fl`: NaN, `+∞`, `-∞` or a
  finite rational.  The sign of zero is not kept.
* `float` arithmetic (line 76) is IEEE 754 binary32 arithmetic evaluated in `float`
  precision: the exact result is rounded to the nearest `float`, ties to even, and
  overflows to an infinity (`round32`).
* The `long double` / `double` arithmetic of `eval_displacement` (lines 99-103) follows the
  IEEE 754 rules for NaN and the infinities and is exact on finite values (the precision of
  `long double` differs between platforms).  The root is kept exactly, as a `Surd`; the
  conversion of line 104 to `float` gives `+∞` from `2^128 - 2^103` on, and is otherwise
  not rounded (`Dist.sqrt`).
* `npoints` (line 94) and the size test of the assertions (lines 65-66) are C `int`
  expressions with 32-bit wrap-around (`wrap32`, and `abs_int` for `abs`).  All other `int` values (sizes,
  coordinates, loop counters, flat indices, displacements) are mathematical integers;
  `flat_index_int` is the 32-bit reading of the flat index.  Integer division `/` is
  truncating division `Int.tdiv`.
* A buffer (`float *`) is a list of samples.  Reading or writing outside the buffer and a
  failing `assert` abort the computation: every function returns an `Option`, `none`
  being the abort.
* The table `neig` has the indices `0..8`.  The read `neig[-1]` of line 151 (made when no
  candidate was selected) returns the two `int`s stored before the table, which the
  program does not determine: the search takes them as a parameter `junk`, one pair for
  each level of the recursion.
* `fprintf(stderr, ...)` appends a record to the diagnostic log returned with the result.

The file has three parts: the model of the C functions; auxiliary definitions used only
in proofs (sample accessors, sums, sparse one-channel patches, the statement-side mean of
the distance evaluator); the theorems.
-/

namespace Tcregistration

/-! ## Machine numbers -/

/-- The value a C `int` holds when the mathematical result of an operation is `x`
(32 bits, two's complement). -/
def wrap32 (x : Int) : Int :=
  (x + 2147483648) % 4294967296 - 2147483648

/-- A floating-point value. -/
inductive Fl where
  /-- Not a number. -/
  | nan
  /-- Positive infinity. -/
  | pinf
  /-- Negative infinity. -/
  | ninf
  /-- A finite number. -/
  | fin (q : ℚ)
  deriving DecidableEq

instance : Zero Fl := ⟨Fl.fin 0⟩

instance : One Fl := ⟨Fl.fin 1⟩

instance : NatCast Fl := ⟨fun n => Fl.fin (n : ℚ)⟩

/-- The sign of a value (`0` for zero and NaN). -/
def Fl.sgn : Fl → Int
  | Fl.nan => 0
  | Fl.pinf => 1
  | Fl.ninf => -1
  | Fl.fin q => if 0 < q then 1 else if q < 0 then -1 else 0

/-- The infinity of the given sign. -/
def Fl.infOf (s : Int) : Fl :=
  if 0 ≤ s then Fl.pinf else Fl.ninf

/-- IEEE negation. -/
def Fl.neg : Fl → Fl
  | Fl.nan => Fl.nan
  | Fl.pinf => Fl.ninf
  | Fl.ninf => Fl.pinf
  | Fl.fin q => Fl.fin (-q)

/-- IEEE addition, before rounding. -/
def Fl.add : Fl → Fl → Fl
  | Fl.fin a, Fl.fin b => Fl.fin (a + b)
  | Fl.nan, _ => Fl.nan
  | _, Fl.nan => Fl.nan
  | Fl.pinf, Fl.ninf => Fl.nan
  | Fl.ninf, Fl.pinf => Fl.nan
  | Fl.pinf, _ => Fl.pinf
  | Fl.ninf, _ => Fl.ninf
  | Fl.fin _, b => b

/-- IEEE subtraction, before rounding. -/
def Fl.sub (a b : Fl) : Fl :=
  a.add b.neg

/-- IEEE multiplication, before rounding. -/
def Fl.mul : Fl → Fl → Fl
  | Fl.fin a, Fl.fin b => Fl.fin (a * b)
  | Fl.nan, _ => Fl.nan
  | _, Fl.nan => Fl.nan
  | a, b => if a.sgn * b.sgn = 0 then Fl.nan else Fl.infOf (a.sgn * b.sgn)

/-- IEEE division, before rounding (a zero divisor is `+0`). -/
def Fl.div : Fl → Fl → Fl
  | Fl.fin a, Fl.fin b => if b = 0 then (if a = 0 then Fl.nan else Fl.infOf (Fl.fin a).sgn)
      else Fl.fin (a / b)
  | Fl.nan, _ => Fl.nan
  | _, Fl.nan => Fl.nan
  | Fl.fin _, _ => Fl.fin 0
  | a, Fl.fin b => if 0 ≤ b then a else a.neg
  | _, _ => Fl.nan

/-- The power `2^z` for an integer exponent. -/
def pow2 (z : Int) : ℚ :=
  if 0 ≤ z then ((2 ^ z.toNat : Nat) : ℚ) else 1 / ((2 ^ (-z).toNat : Nat) : ℚ)

/-- The number of halvings that bring `n` below `2`, at most `fuel` of them. -/
def log2_fuel : Nat → Nat → Nat
  | 0, _ => 0
  | fuel + 1, n => if 2 ≤ n then log2_fuel fuel (n / 2) + 1 else 0

/-- The binary exponent of a positive natural number: `2^(nlog2 n) ≤ n < 2^(nlog2 n + 1)`. -/
def nlog2 (n : Nat) : Nat :=
  log2_fuel n n

/-- The binary exponent of a non-zero rational: `2^(ilog2 q) ≤ |q| < 2^(ilog2 q + 1)`. -/
def ilog2 (q : ℚ) : Int :=
  let t : Int := (nlog2 q.num.natAbs : Int) - (nlog2 q.den : Int)
  if pow2 t ≤ |q| then t else t - 1

/-- The integer nearest to `y`, the even one of the two when `y` lies half-way. -/
def rne (y : ℚ) : Int :=
  if y - ⌊y⌋ < 1 / 2 then ⌊y⌋
  else if 1 / 2 < y - ⌊y⌋ then ⌊y⌋ + 1
  else if ⌊y⌋ % 2 = 0 then ⌊y⌋ else ⌊y⌋ + 1

/-- The exponent of the spacing of the `float`s around `q`: `e - 23` with `e` the binary
exponent of `q`, at least `-126` (below `2^-126` the `float`s are subnormal, spaced
`2^-149`). -/
def ulp_exp (q : ℚ) : Int :=
  max (ilog2 q) (-126) - 23

/-- The spacing of the `float`s around `q`. -/
def ulp32 (q : ℚ) : ℚ :=
  pow2 (ulp_exp q)

/-- The `float` nearest to the rational `q` (round to nearest, ties to even): a multiple
of the spacing around `q`, or an infinity when that multiple reaches `2^128`. -/
def round32q (q : ℚ) : Fl :=
  if pow2 128 ≤ |(rne (q / ulp32 q) : ℚ) * ulp32 q| then Fl.infOf (Fl.fin q).sgn
  else Fl.fin ((rne (q / ulp32 q) : ℚ) * ulp32 q)

/-- The rounding of an exact result to `float`. -/
def round32 : Fl → Fl
  | Fl.fin q => round32q q
  | x => x

/-- The `float` sum `a + b`. -/
def Fl.fadd (a b : Fl) : Fl :=
  round32 (a.add b)

/-- The `float` quotient `a / b`. -/
def Fl.fdiv (a b : Fl) : Fl :=
  round32 (a.div b)

/-! ## Memory and control primitives -/

/-- A `float *` buffer: the list of its samples. -/
abbrev Buffer := List Fl

/-- The read `x[k]`; `none` when `k` is outside the buffer. -/
def load (x : Buffer) (k : Int) : Option Fl :=
  if 0 ≤ k then x[k.toNat]? else none

/-- The write `y[k] = v`; `none` when `k` is outside the buffer. -/
def store (y : Buffer) (k : Int) (v : Fl) : Option Buffer :=
  if 0 ≤ k ∧ k.toNat < y.length then some (y.set k.toNat v) else none

/-- The buffer `malloc(n * sizeof(float))` returns: `n` cells (their content is
overwritten before it is read; it is taken to be `0`). -/
def malloc (n : Int) : Buffer :=
  List.replicate n.toNat 0

/-- Runs `n` iterations of a loop body from counter `k` on, threading the state. -/
def forLoop {σ : Type} (body : σ → Int → Option σ) : Nat → Int → σ → Option σ
  | 0, _, s => some s
  | n + 1, k, s =>
    match body s k with
    | none => none
    | some s' => forLoop body n (k + 1) s'

/-- The loop `for (int k = lo; k < hi; k++) body`, from state `s`. -/
def cfor {σ : Type} (lo hi : Int) (s : σ) (body : σ → Int → Option σ) : Option σ :=
  forLoop body (hi - lo).toNat lo s

/-! ## Square roots and distances -/

/-- The non-negative real number `√radicand`, kept exactly by its radicand. -/
structure Surd where
  /-- The number under the root. -/
  radicand : ℚ
  /-- The radicand is not negative. -/
  nonneg : 0 ≤ radicand
  deriving DecidableEq

/-- The root of a non-negative rational (`√0` below zero, as `Real.sqrt`). -/
def Surd.sqrt (r : ℚ) : Surd :=
  ⟨max r 0, le_max_right r 0⟩

/-- The real number a `Surd` stands for. -/
noncomputable def Surd.toReal (s : Surd) : ℝ :=
  Real.sqrt (s.radicand : ℝ)

/-- A `float` returned by `eval_displacement`: NaN, `+∞` or a finite root. -/
inductive Dist where
  /-- Not a number. -/
  | nan
  /-- Positive infinity (`INFINITY`). -/
  | inf
  /-- A finite root. -/
  | fin (s : Surd)
  deriving DecidableEq

/-- The least magnitude that rounds to an infinite `float`: `2^128 - 2^103`. -/
def flt_overflow : ℚ :=
  pow2 128 - pow2 103

/-- Lines 103-104: `sqrt(r)` converted to `float`.  The root of a NaN or of a negative
number is NaN; a root of at least `flt_overflow` becomes `+∞`. -/
def Dist.sqrt : Fl → Dist
  | Fl.nan => Dist.nan
  | Fl.ninf => Dist.nan
  | Fl.pinf => Dist.inf
  | Fl.fin q =>
    if q < 0 then Dist.nan
    else if flt_overflow * flt_overflow ≤ q then Dist.inf
    else Dist.fin (Surd.sqrt q)

/-- Lines 22-28: `getsample_0`. -/
def getsample_0 (x : Buffer) (w h pd i j l : Int) : Option Fl :=
  if i < 0 ∨ j < 0 ∨ i ≥ w ∨ j ≥ h ∨ l < 0 ∨ l ≥ pd then
    some 0
  else
    load x (pd * (j * w + i) + l)

/-- Line 27: the flat index `pd*(j*w+i)+l`, in `int` arithmetic. -/
def flat_index_int (w pd i j l : Int) : Int :=
  wrap32 (wrap32 (pd * wrap32 (wrap32 (j * w) + i)) + l)

/-- Lines 48 and 76: the flat index `(j*w+i)*pd+l` of a store, in `int` arithmetic. -/
def store_index_int (w pd i j l : Int) : Int :=
  wrap32 (wrap32 (wrap32 (wrap32 (j * w) + i) * pd) + l)

/-- Lines 40-50: `apply_translation`; returns the filled-in `y`. -/
def apply_translation (y : Buffer) (dx dy : Int) (x : Buffer) (w h pd : Int) :
    Option Buffer :=
  cfor 0 h y fun y j =>
  cfor 0 w y fun y i =>
  cfor 0 pd y fun y l =>
    match getsample_0 x w h pd (i - dx) (j - dy) l with
    | none => none
    | some v => store y ((j * w + i) * pd + l) v

/-- The value `abs(x)` for an `int` `x`; the negation wraps, so that `abs(INT_MIN)` is
`INT_MIN`. -/
def abs_int (x : Int) : Int :=
  if x < 0 then wrap32 (-x) else x

/-- Lines 65-66: the size test `abs(2*ow-iw) < 2` of the two assertions, in `int`
arithmetic. -/
def zoom_size_ok (ow iw : Int) : Bool :=
  decide (abs_int (wrap32 (wrap32 (2 * ow) - iw)) < 2)

/-- Lines 71-76: the value stored at output pixel `(i,j)`, channel `l`: the `float`
expression `(a[0] + a[1] + a[2] + a[3])/4`. -/
def zoom_pixel (inp : Buffer) (iw ih pd i j l : Int) : Option Fl :=
  match getsample_0 inp iw ih pd (2 * i) (2 * j) l,
        getsample_0 inp iw ih pd (2 * i + 1) (2 * j) l,
        getsample_0 inp iw ih pd (2 * i) (2 * j + 1) l,
        getsample_0 inp iw ih pd (2 * i + 1) (2 * j + 1) l with
  | some a0, some a1, some a2, some a3 => some ((((a0.fadd a1).fadd a2).fadd a3).fdiv 4)
  | _, _, _, _ => none

/-- Lines 62-78: `zoom_out_by_factor_two`; returns the filled-in `out`. -/
def zoom_out_by_factor_two (out : Buffer) (ow oh : Int) (inp : Buffer) (iw ih pd : Int) :
    Option Buffer :=
  if ¬ zoom_size_ok ow iw then none
  else if ¬ zoom_size_ok oh ih then none
  else
    cfor 0 oh out fun out j =>
    cfor 0 ow out fun out i =>
    cfor 0 pd out fun out l =>
      match zoom_pixel inp iw ih pd i j l with
      | none => none
      | some v => store out ((ow * j + i) * pd + l) v

/-- Line 94: the value of `npoints`, an `int` product. -/
def npoints (w h pd : Int) : Int :=
  wrap32 (wrap32 ((w - 2 * Int.tdiv w 16) * (h - 2 * Int.tdiv h 16)) * pd)

/-- Line 101: the term `(a - b) * (a - b)/(1.0*npoints)`. -/
def sq_term (a b : Fl) (n : Int) : Fl :=
  ((a.sub b).mul (a.sub b)).div (Fl.fin (1 * (n : ℚ)))

/-- Lines 99-101: one step of the accumulation, at pixel `(i,j)`, channel `l`. -/
def eval_term (A B : Buffer) (w h pd : Int) (d : Int × Int) (n : Int)
    (r : Fl) (i j l : Int) : Option Fl :=
  match getsample_0 A w h pd i j l, getsample_0 B w h pd (i - d.1) (j - d.2) l with
  | some a, some b => some (r.add (sq_term a b n))
  | _, _ => none

/-- Lines 91-102: the accumulated `r` of `eval_displacement` before the root. -/
def eval_sum (A B : Buffer) (w h pd : Int) (d : Int × Int) : Option Fl :=
  let woff := Int.tdiv w 16
  let hoff := Int.tdiv h 16
  cfor hoff (h - hoff) (0 : Fl) fun r j =>
  cfor woff (w - woff) r fun r i =>
  cfor 0 pd r fun r l =>
    eval_term A B w h pd d (npoints w h pd) r i j l

/-- Lines 89-105: `eval_displacement`. -/
def eval_displacement (A B : Buffer) (w h pd : Int) (d : Int × Int) : Option Dist :=
  match eval_sum A B w h pd d with
  | none => none
  | some r => some (Dist.sqrt r)

/-- The sum before rounding as `+`. -/
instance : Add Fl := ⟨Fl.add⟩

/-- The sum before rounding is associative and commutative, with neutral element `0`. -/
instance : AddCommMonoid Fl where
  add_assoc a b c := by
    cases a <;> cases b <;> cases c <;> first | rfl | exact congrArg Fl.fin (add_assoc _ _ _)
  zero_add a := by
    cases a <;> first | rfl | exact congrArg Fl.fin (zero_add _)
  add_zero a := by
    cases a <;> first | rfl | exact congrArg Fl.fin (add_zero _)
  add_comm a b := by
    cases a <;> cases b <;> first | rfl | exact congrArg Fl.fin (add_comm _ _)
  nsmul := nsmulRec

/-- The finite number a value holds (`0` for NaN and the infinities). -/
def Fl.toQ : Fl → ℚ
  | Fl.fin q => q
  | _ => 0

/-- Every sample of the buffer is a finite number. -/
def finite_samples (x : Buffer) : Prop :=
  ∀ v ∈ x, ∃ q : ℚ, v = Fl.fin q

/-- A sample accessor: pixel `(i,j)`, channel `l`, to value. -/
abbrev View := Int → Int → Int → Fl

/-- A sample accessor with finite values. -/
abbrev ViewQ := Int → Int → Int → ℚ

/-- The value `getsample_0` returns, as a total function (`0` if the read aborts). -/
def sampleV (x : Buffer) (w h pd : Int) : View :=
  fun i j l => (getsample_0 x w h pd i j l).getD 0

/-- The finite value `getsample_0` returns (`0` if the read aborts or the value is not
finite). -/
def sampleQ (x : Buffer) (w h pd : Int) : ViewQ :=
  fun i j l => (sampleV x w h pd i j l).toQ

/-- The loop nest shared by `apply_translation` and `zoom_out_by_factor_two`: for each
row `j`, column `i` and channel `l`, in this order, store `val i j l` at `idx i j l`. -/
def fill (y : Buffer) (w h pd : Int) (val : Int → Int → Int → Option Fl)
    (idx : Int → Int → Int → Int) : Option Buffer :=
  cfor 0 h y fun y j =>
  cfor 0 w y fun y i =>
  cfor 0 pd y fun y l =>
    match val i j l with
    | none => none
    | some v => store y (idx i j l) v

/-- The sum `t lo + t (lo+1) + ... + t (lo+n-1)`, added from the left as a loop does. -/
def sumFrom {M : Type} [AddCommMonoid M] (t : Int → M) (lo : Int) : Nat → M
  | 0 => 0
  | n + 1 => sumFrom t lo n + t (lo + n)

/-- The sum of `t k` over `lo ≤ k < hi`. -/
def sumIco {M : Type} [AddCommMonoid M] (lo hi : Int) (t : Int → M) : M :=
  sumFrom t lo (hi - lo).toNat

/-- The value accumulated by `eval_displacement` before the root, on sample accessors. -/
def evalV (f g : View) (w h pd : Int) (d : Int × Int) : Fl :=
  sumIco (Int.tdiv h 16) (h - Int.tdiv h 16) fun j =>
  sumIco (Int.tdiv w 16) (w - Int.tdiv w 16) fun i =>
  sumIco 0 pd fun l =>
    sq_term (f i j l) (g (i - d.1) (j - d.2) l) (npoints w h pd)

/-- The value accumulated by `eval_displacement` before the root, on finite samples. -/
def evalQ (f g : ViewQ) (w h pd : Int) (d : Int × Int) : ℚ :=
  sumIco (Int.tdiv h 16) (h - Int.tdiv h 16) fun j =>
  sumIco (Int.tdiv w 16) (w - Int.tdiv w 16) fun i =>
  sumIco 0 pd fun l =>
    (f i j l - g (i - d.1) (j - d.2) l) * (f i j l - g (i - d.1) (j - d.2) l)
      / (1 * ((npoints w h pd : Int) : ℚ))

/-- Spec (Distance Evaluator): the index set of the mean, `l ∈ [0,pd)`,
`i ∈ [woff, w-woff)`, `j ∈ [hoff, h-hoff)` with `woff = floor(w/16)`, `hoff = floor(h/16)`;
its elements are the triples `(i, j, l)`. -/
def spec_window (w h pd : Int) : Finset (Int × Int × Int) :=
  Finset.Ico (w / 16) (w - w / 16) ×ˢ Finset.Ico (h / 16) (h - h / 16) ×ˢ Finset.Ico 0 pd

/-- Spec (Distance Evaluator): the mean over the window of the squared difference between
the stored sample `A(i,j,l)` and the bounded sample of `B` at `(i-dx, j-dy, l)`, for
finite samples. -/
def spec_mean_sq (A B : Buffer) (w h pd : Int) (d : Int × Int) : ℚ :=
  (∑ p ∈ spec_window w h pd,
      ((A.getD (pd * (p.2.1 * w + p.1) + p.2.2).toNat 0).toQ
        - sampleQ B w h pd (p.1 - d.1) (p.2.1 - d.2) p.2.2) ^ 2)
    / ((spec_window w h pd).card : ℚ)

/-- Spec (Distance Evaluator): the square root of the mean squared difference. -/
noncomputable def spec_distance (A B : Buffer) (w h pd : Int) (d : Int × Int) : ℝ :=
  Real.sqrt ((spec_mean_sq A B w h pd d : ℚ) : ℝ)

/-- The comparison `a <= b` on two returned distances: false when either is NaN. -/
def Dist.le : Dist → Dist → Prop
  | Dist.fin a, Dist.fin b => a.radicand ≤ b.radicand
  | Dist.fin _, Dist.inf => True
  | Dist.inf, Dist.inf => True
  | _, _ => False

/-- The reduced image of `zoom_out_by_factor_two`, on sample accessors. -/
def zoomV (f : View) (ow oh pd : Int) : View :=
  fun i j l =>
    if i < 0 ∨ j < 0 ∨ i ≥ ow ∨ j ≥ oh ∨ l < 0 ∨ l ≥ pd then 0
    else ((((f (2 * i) (2 * j) l).fadd (f (2 * i + 1) (2 * j) l)).fadd
      (f (2 * i) (2 * j + 1) l)).fadd (f (2 * i + 1) (2 * j + 1) l)).fdiv 4

/-- A one-channel image that is zero outside the rectangle of `W x H` pixels at
`(x0, y0)`, whose finite samples are listed row by row in `data`. -/
structure Patch where
  /-- The first column of the rectangle. -/
  x0 : Int
  /-- The first row of the rectangle. -/
  y0 : Int
  /-- The number of columns. -/
  W : Int
  /-- The number of rows. -/
  H : Int
  /-- The samples, row by row. -/
  data : List ℚ

/-- The finite sample accessor of a patch. -/
def Patch.viewQ (p : Patch) : ViewQ :=
  fun i j l =>
    if l = 0 ∧ p.x0 ≤ i ∧ i < p.x0 + p.W ∧ p.y0 ≤ j ∧ j < p.y0 + p.H then
      p.data.getD ((j - p.y0) * p.W + (i - p.x0)).toNat 0
    else 0

/-- The sample accessor of a patch. -/
def Patch.view (p : Patch) : View :=
  fun i j l => Fl.fin (p.viewQ i j l)

/-- One level of a pyramid of one-channel images: the two images and their size. -/
structure Level where
  /-- The reference image. -/
  a : Patch
  /-- The shifted image. -/
  b : Patch
  /-- The width. -/
  w : Int
  /-- The height. -/
  h : Int

/-- The patch `q` is the reduction of the patch `p` to size `ow x oh`: its rectangle lies
in the image and in the halved rectangle of `p`, where the samples are compared. -/
def zoomCheck (p q : Patch) (ow oh : Int) : Prop :=
  (0 ≤ q.x0 ∧ q.x0 + q.W ≤ ow ∧ 0 ≤ q.y0 ∧ q.y0 + q.H ≤ oh) ∧
  (p.x0 / 2 ≤ q.x0 ∧ q.x0 + q.W ≤ (p.x0 + p.W + 1) / 2 ∧
    p.y0 / 2 ≤ q.y0 ∧ q.y0 + q.H ≤ (p.y0 + p.H + 1) / 2) ∧
  ∀ n, n < ((p.x0 + p.W + 1) / 2 - p.x0 / 2).toNat →
    ∀ m, m < ((p.y0 + p.H + 1) / 2 - p.y0 / 2).toNat →
      zoomV p.view ow oh 1 (p.x0 / 2 + (n : Int)) (p.y0 / 2 + (m : Int)) 0
        = q.view (p.x0 / 2 + (n : Int)) (p.y0 / 2 + (m : Int)) 0

instance (p q : Patch) (ow oh : Int) : Decidable (zoomCheck p q ow oh) :=
  inferInstanceAs (Decidable (_ ∧ _ ∧ _))

/-- Each level of the list is the reduction of the level before it, and the divisor
`npoints` of each level is not zero. -/
def pyramidOK : List Level → Prop
  | L :: L' :: rest =>
    (npoints L.w L.h 1 ≠ 0 ∧ L'.w = ⌈(L.w : ℚ) / 2⌉ ∧ L'.h = ⌈(L.h : ℚ) / 2⌉ ∧
      zoomCheck L.a L'.a L'.w L'.h ∧ zoomCheck L.b L'.b L'.w L'.h) ∧ pyramidOK (L' :: rest)
  | [L] => npoints L.w L.h 1 ≠ 0
  | [] => True

instance pyramidOK.decidable : (ls : List Level) → Decidable (pyramidOK ls)
  | [] => isTrue trivial
  | [_] => inferInstanceAs (Decidable (_ ≠ _))
  | _ :: L' :: rest =>
    have := pyramidOK.decidable (L' :: rest)
    inferInstanceAs (Decidable (_ ∧ _))

/-- Lines 95-97: the loop nest of `eval_displacement`, from state `s0`, for an arbitrary
loop body. -/
def eval_loop {σ : Type} (w h pd : Int) (s0 : σ) (body : σ → Int → Int → Int → Option σ) :
    Option σ :=
  cfor (Int.tdiv h 16) (h - Int.tdiv h 16) s0 fun s j =>
  cfor (Int.tdiv w 16) (w - Int.tdiv w 16) s fun s i =>
  cfor 0 pd s fun s l =>
    body s i j l

/-- The number of times the loop nest of `eval_displacement` runs its body: the nest with
a counter incremented in place of the accumulation. -/
def eval_count (w h pd : Int) : Option Nat :=
  eval_loop w h pd (0 : Nat) fun c _ _ _ => some (c + 1)

/-- The loop nest `fill`, also recording, in order, the flat indices it stores to. -/
def fill_traced (y : Buffer) (w h pd : Int) (val : Int → Int → Int → Option Fl)
    (idx : Int → Int → Int → Int) : Option (Buffer × List Int) :=
  cfor 0 h (y, ([] : List Int)) fun s j =>
  cfor 0 w s fun s i =>
  cfor 0 pd s fun s l =>
    match val i j l with
    | none => none
    | some v =>
      match store s.1 (idx i j l) v with
      | none => none
      | some y' => some (y', s.2 ++ [idx i j l])

/-- `apply_translation` with the list of the cells of `y` it writes, in order. -/
def apply_translation_traced (y : Buffer) (dx dy : Int) (x : Buffer) (w h pd : Int) :
    Option (Buffer × List Int) :=
  fill_traced y w h pd (fun i j l => getsample_0 x w h pd (i - dx) (j - dy) l)
    (fun i j l => (j * w + i) * pd + l)

/-- `zoom_out_by_factor_two` with the list of the cells of `out` it writes, in order. -/
def zoom_out_traced (out : Buffer) (ow oh : Int) (inp : Buffer) (iw ih pd : Int) :
    Option (Buffer × List Int) :=
  if ¬ zoom_size_ok ow iw then none
  else if ¬ zoom_size_ok oh ih then none
  else
    fill_traced out ow oh pd (fun i j l => zoom_pixel inp iw ih pd i j l)
      (fun i j l => (ow * j + i) * pd + l)

/-! ## Rounding to `float` -/

theorem ulp_exp_ge (q : ℚ) : -149 ≤ ulp_exp q := by
  unfold ulp_exp
  omega

theorem forLoop_inv {σ : Type} (body : σ → Int → Option σ) (P : Int → σ → Prop) :
    ∀ (n : Nat) (lo : Int) (s : σ), P lo s →
      (∀ k t, lo ≤ k → k < lo + n → P k t → ∃ t', body t k = some t' ∧ P (k + 1) t') →
      ∃ s', forLoop body n lo s = some s' ∧ P (lo + n) s' := by
  intro n
  induction n with
  | zero => intro lo s h0 _; exact ⟨s, rfl, by simpa using h0⟩
  | succ n ih =>
    intro lo s h0 hstep
    obtain ⟨t, ht, hP⟩ := hstep lo s le_rfl (by push_cast; omega) h0
    obtain ⟨s', hs', hP'⟩ := ih (lo + 1) t hP (fun k u hk1 hk2 hPk =>
      hstep k u (by omega) (by push_cast; omega) hPk)
    refine ⟨s', ?_, ?_⟩
    · simp only [forLoop, ht]; exact hs'
    · have : lo + ((n + 1 : Nat) : Int) = lo + 1 + n := by push_cast; ring
      rw [this]; exact hP'

theorem cfor_inv {σ : Type} (body : σ → Int → Option σ) (P : Int → σ → Prop)
    (lo hi : Int) (s : σ) (hle : lo ≤ hi) (h0 : P lo s)
    (hstep : ∀ k t, lo ≤ k → k < hi → P k t → ∃ t', body t k = some t' ∧ P (k + 1) t') :
    ∃ s', cfor lo hi s body = some s' ∧ P hi s' := by
  have hn : lo + ((hi - lo).toNat : Int) = hi := by
    rw [Int.toNat_of_nonneg (by omega)]; ring
  obtain ⟨s', h1, h2⟩ := forLoop_inv body P (hi - lo).toNat lo s h0
    (fun k t hk1 hk2 hP => hstep k t hk1 (by omega) hP)
  exact ⟨s', h1, by rwa [hn] at h2⟩

theorem cfor_empty {σ : Type} (body : σ → Int → Option σ) (lo hi : Int) (s : σ)
    (h : hi ≤ lo) : cfor lo hi s body = some s := by
  have : (hi - lo).toNat = 0 := by omega
  simp [cfor, this, forLoop]
/-! ## Index arithmetic -/

theorem index_nonneg {w pd i j l : Int} (hi : 0 ≤ i) (hw : i < w) (hj : 0 ≤ j)
    (hl : 0 ≤ l) (hp : l < pd) : 0 ≤ (j * w + i) * pd + l := by
  have h1 : 0 ≤ j * w := mul_nonneg hj (by omega)
  have h2 : 0 ≤ (j * w + i) * pd := mul_nonneg (by omega) (by omega)
  omega

theorem index_lt {w h pd i j l : Int} (hi : 0 ≤ i) (hw : i < w) (hh : j < h)
    (hl : 0 ≤ l) (hp : l < pd) : (j * w + i) * pd + l < w * h * pd := by
  have h1 : j * w + i + 1 ≤ h * w := by
    have : (j + 1) * w ≤ h * w := mul_le_mul_of_nonneg_right (by omega) (by omega)
    linarith
  have h2 : (j * w + i + 1) * pd ≤ h * w * pd :=
    mul_le_mul_of_nonneg_right h1 (by omega)
  have h3 : w * h * pd = h * w * pd := by ring
  linarith

theorem divmod_unique {n a r a' r' : Int} (hr : 0 ≤ r) (hrn : r < n) (hr' : 0 ≤ r')
    (hrn' : r' < n) (h : a * n + r = a' * n + r') : a = a' ∧ r = r' := by
  have hn : 0 < n := by omega
  have e1 : (a * n + r) % n = r := by
    rw [add_comm, Int.add_mul_emod_self, Int.emod_eq_of_lt hr hrn]
  have e2 : (a' * n + r') % n = r' := by
    rw [add_comm, Int.add_mul_emod_self, Int.emod_eq_of_lt hr' hrn']
  have hrr : r = r' := by rw [← e1, ← e2, h]
  subst hrr
  have : a * n = a' * n := by linarith
  exact ⟨Int.eq_of_mul_eq_mul_right (by omega) this, rfl⟩

theorem index_inj {w pd i j l i' j' l' : Int} (hi : 0 ≤ i) (hw : i < w) (hl : 0 ≤ l)
    (hp : l < pd) (hi' : 0 ≤ i') (hw' : i' < w) (hl' : 0 ≤ l') (hp' : l' < pd)
    (h : (j * w + i) * pd + l = (j' * w + i') * pd + l') : i = i' ∧ j = j' ∧ l = l' := by
  obtain ⟨h1, h2⟩ := divmod_unique hl hp hl' hp' h
  obtain ⟨h3, h4⟩ := divmod_unique hi hw hi' hw' h1
  exact ⟨h4, h3, h2⟩

/-! ## Memory -/

theorem load_eq_some {x : Buffer} {k : Int} (h0 : 0 ≤ k) (h1 : k < x.length) :
    ∃ v, load x k = some v ∧ x[k.toNat]? = some v := by
  have : k.toNat < x.length := by omega
  refine ⟨x[k.toNat], ?_, ?_⟩
  · simp [load, h0, List.getElem?_eq_getElem this]
  · exact List.getElem?_eq_getElem this

theorem store_eq_some {y : Buffer} {k : Int} (v : Fl) (h0 : 0 ≤ k) (h1 : k < y.length) :
    store y k v = some (y.set k.toNat v) := by
  have : k.toNat < y.length := by omega
  simp [store, h0, this]

theorem load_set_self {y : Buffer} {k : Int} (v : Fl) (h0 : 0 ≤ k) (h1 : k < y.length) :
    load (y.set k.toNat v) k = some v := by
  have : k.toNat < y.length := by omega
  simp [load, h0, this]

theorem load_set_ne {y : Buffer} {k k' : Int} (v : Fl) (h0 : 0 ≤ k) (h0' : 0 ≤ k')
    (hne : k ≠ k') : load (y.set k.toNat v) k' = load y k' := by
  have : k.toNat ≠ k'.toNat := by omega
  simp [load, h0', List.getElem?_set_ne this]
/-! ## The bounded sampler -/

theorem getsample_0_of_outside (x : Buffer) {w h pd i j l : Int}
    (hout : ¬ (0 ≤ i ∧ i < w ∧ 0 ≤ j ∧ j < h ∧ 0 ≤ l ∧ l < pd)) :
    getsample_0 x w h pd i j l = some 0 := by
  have : i < 0 ∨ j < 0 ∨ i ≥ w ∨ j ≥ h ∨ l < 0 ∨ l ≥ pd := by omega
  simp [getsample_0, this]

theorem getsample_0_of_inside (x : Buffer) {w h pd i j l : Int}
    (hi : 0 ≤ i) (hw : i < w) (hj : 0 ≤ j) (hh : j < h) (hl : 0 ≤ l) (hp : l < pd) :
    getsample_0 x w h pd i j l = load x (pd * (j * w + i) + l) := by
  have : ¬ (i < 0 ∨ j < 0 ∨ i ≥ w ∨ j ≥ h ∨ l < 0 ∨ l ≥ pd) := by omega
  simp [getsample_0, this]

theorem getsample_0_eq_some (x : Buffer) (w h pd i j l : Int)
    (hx : (x.length : Int) = w * h * pd) :
    getsample_0 x w h pd i j l = some (sampleV x w h pd i j l) := by
  by_cases hin : 0 ≤ i ∧ i < w ∧ 0 ≤ j ∧ j < h ∧ 0 ≤ l ∧ l < pd
  · obtain ⟨hi, hw, hj, hh, hl, hp⟩ := hin
    have e : pd * (j * w + i) + l = (j * w + i) * pd + l := by ring
    obtain ⟨v, hv, _⟩ := load_eq_some (x := x) (k := pd * (j * w + i) + l)
      (by rw [e]; exact index_nonneg hi hw hj hl hp)
      (by rw [e, hx]; exact index_lt hi hw hh hl hp)
    simp [sampleV, getsample_0_of_inside x hi hw hj hh hl hp, hv]
  · simp [sampleV, getsample_0_of_outside x hin]

/-! ## The store loop nest -/

theorem fill_spec (y : Buffer) (w h pd : Int) (val : Int → Int → Int → Option Fl)
    (idx : Int → Int → Int → Int) (f : Int → Int → Int → Fl)
    (hy : (y.length : Int) = w * h * pd)
    (hidx : ∀ i j l, idx i j l = (j * w + i) * pd + l)
    (hval : ∀ i j l, 0 ≤ i → i < w → 0 ≤ j → j < h → 0 ≤ l → l < pd →
      val i j l = some (f i j l)) :
    ∃ y', fill y w h pd val idx = some y' ∧ y'.length = y.length ∧
      ∀ i j l, 0 ≤ i → i < w → 0 ≤ j → j < h → 0 ≤ l → l < pd →
        load y' ((j * w + i) * pd + l) = some (f i j l) := by
  -- `Inv c t`: the cells below `c` hold their final value
  let Inv : Int → Buffer → Prop := fun c t =>
    t.length = y.length ∧
      ∀ i j l, 0 ≤ i → i < w → 0 ≤ j → j < h → 0 ≤ l → l < pd →
        (j * w + i) * pd + l < c → load t ((j * w + i) * pd + l) = some (f i j l)
  by_cases hh : 0 ≤ h
  swap
  · refine ⟨y, ?_, rfl, ?_⟩
    · exact cfor_empty _ _ _ _ (by omega)
    · intro i j l _ _ hj hjh; omega
  by_cases hw : 0 ≤ w
  swap
  · have : ∀ (t : Buffer) (j : Int), (cfor 0 w t fun y i => cfor 0 pd y fun y l =>
        match val i j l with
        | none => none
        | some v => store y (idx i j l) v) = some t :=
      fun t j => cfor_empty _ _ _ _ (by omega)
    obtain ⟨y', h1, h2⟩ := cfor_inv (fun t j => cfor 0 w t fun y i => cfor 0 pd y fun y l =>
        match val i j l with
        | none => none
        | some v => store y (idx i j l) v) (fun _ t => t = y) 0 h y hh rfl
      (fun k t _ _ ht => ⟨t, this t k, ht⟩)
    subst h2
    exact ⟨y', h1, rfl, fun i j l hi hiw => by omega⟩
  by_cases hp : 0 ≤ pd
  swap
  · have inner : ∀ (t : Buffer) (i j : Int), (cfor 0 pd t fun y l =>
        match val i j l with
        | none => none
        | some v => store y (idx i j l) v) = some t :=
      fun t i j => cfor_empty _ _ _ _ (by omega)
    have mid : ∀ (t : Buffer) (j : Int), (cfor 0 w t fun y i => cfor 0 pd y fun y l =>
        match val i j l with
        | none => none
        | some v => store y (idx i j l) v) = some t := by
      intro t j
      obtain ⟨y', h1, h2⟩ := cfor_inv (fun y i => cfor 0 pd y fun y l =>
        match val i j l with
        | none => none
        | some v => store y (idx i j l) v) (fun _ u => u = t) 0 w t hw rfl
        (fun k u _ _ hu => ⟨u, inner u k j, hu⟩)
      rw [h1, h2]
    obtain ⟨y', h1, h2⟩ := cfor_inv (fun t j => cfor 0 w t fun y i => cfor 0 pd y fun y l =>
        match val i j l with
        | none => none
        | some v => store y (idx i j l) v) (fun _ t => t = y) 0 h y hh rfl
      (fun k t _ _ ht => ⟨t, mid t k, ht⟩)
    subst h2
    exact ⟨y', h1, rfl, fun i j l _ _ _ _ hl hlp => by omega⟩
  -- the innermost loop
  have inner : ∀ (t : Buffer) (i j : Int), 0 ≤ i → i < w → 0 ≤ j → j < h →
      Inv ((j * w + i) * pd) t →
      ∃ t', (cfor 0 pd t fun y l =>
        match val i j l with
        | none => none
        | some v => store y (idx i j l) v) = some t' ∧ Inv ((j * w + (i + 1)) * pd) t' := by
    intro t i j hi hiw hj hjh hInv
    obtain ⟨t', h1, h2⟩ := cfor_inv (fun y l =>
        match val i j l with
        | none => none
        | some v => store y (idx i j l) v) (fun l u => Inv ((j * w + i) * pd + l) u)
        0 pd t hp (by simpa using hInv) (by
      intro l u hl hlp ⟨hlen, hu⟩
      have hc0 : 0 ≤ (j * w + i) * pd + l := index_nonneg hi hiw hj hl hlp
      have hc1 : (j * w + i) * pd + l < (u.length : Int) := by
        rw [hlen, hy]; exact index_lt hi hiw hjh hl hlp
      refine ⟨u.set ((j * w + i) * pd + l).toNat (f i j l), ?_, ?_, ?_⟩
      · simp only [hval i j l hi hiw hj hjh hl hlp, hidx]
        exact store_eq_some _ hc0 hc1
      · simp [hlen]
      · intro i' j' l' hi' hiw' hj' hjh' hl' hlp' hlt
        by_cases heq : (j * w + i) * pd + l = (j' * w + i') * pd + l'
        · obtain ⟨e1, e2, e3⟩ := index_inj hi hiw hl hlp hi' hiw' hl' hlp' heq
          subst e1 e2 e3
          exact load_set_self _ hc0 hc1
        · rw [load_set_ne _ hc0 (index_nonneg hi' hiw' hj' hl' hlp') heq]
          exact hu i' j' l' hi' hiw' hj' hjh' hl' hlp' (by omega))
    refine ⟨t', h1, ?_⟩
    have : (j * w + (i + 1)) * pd = (j * w + i) * pd + pd := by ring
    rw [this]; exact h2
  -- the loop over the columns
  have mid : ∀ (t : Buffer) (j : Int), 0 ≤ j → j < h → Inv (j * w * pd) t →
      ∃ t', (cfor 0 w t fun y i => cfor 0 pd y fun y l =>
        match val i j l with
        | none => none
        | some v => store y (idx i j l) v) = some t' ∧ Inv ((j + 1) * w * pd) t' := by
    intro t j hj hjh hInv
    obtain ⟨t', h1, h2⟩ := cfor_inv (fun y i => cfor 0 pd y fun y l =>
        match val i j l with
        | none => none
        | some v => store y (idx i j l) v) (fun i u => Inv ((j * w + i) * pd) u)
        0 w t hw (by simpa using hInv)
        (fun i u hi hiw hu => inner u i j hi hiw hj hjh hu)
    refine ⟨t', h1, ?_⟩
    have : (j + 1) * w * pd = (j * w + w) * pd := by ring
    rw [this]; exact h2
  -- the loop over the rows
  obtain ⟨y', h1, h2⟩ := cfor_inv (fun t j => cfor 0 w t fun y i => cfor 0 pd y fun y l =>
        match val i j l with
        | none => none
        | some v => store y (idx i j l) v) (fun j u => Inv (j * w * pd) u)
        0 h y hh ⟨rfl, fun i j l hi hiw hj _ hl hlp hlt => by
          have := index_nonneg hi hiw hj hl hlp
          simp at hlt; omega⟩
        (fun j u hj hjh hu => mid u j hj hjh hu)
  refine ⟨y', h1, h2.1, fun i j l hi hiw hj hjh hl hlp => ?_⟩
  refine h2.2 i j l hi hiw hj hjh hl hlp ?_
  have := index_lt hi hiw hjh hl hlp
  have e : h * w * pd = w * h * pd := by ring
  omega
theorem apply_translation_eq_fill (y : Buffer) (dx dy : Int) (x : Buffer) (w h pd : Int) :
    apply_translation y dx dy x w h pd =
      fill y w h pd (fun i j l => getsample_0 x w h pd (i - dx) (j - dy) l)
        (fun i j l => (j * w + i) * pd + l) := rfl

theorem apply_translation_spec (y x : Buffer) (dx dy w h pd : Int)
    (hx : (x.length : Int) = w * h * pd) (hy : (y.length : Int) = w * h * pd) :
    ∃ y', apply_translation y dx dy x w h pd = some y' ∧ y'.length = y.length ∧
      ∀ i j l, 0 ≤ i → i < w → 0 ≤ j → j < h → 0 ≤ l → l < pd →
        load y' ((j * w + i) * pd + l) = some (sampleV x w h pd (i - dx) (j - dy) l) := by
  rw [apply_translation_eq_fill]
  exact fill_spec y w h pd _ _ (fun i j l => sampleV x w h pd (i - dx) (j - dy) l) hy
    (fun _ _ _ => rfl) (fun i j l _ _ _ _ _ _ => getsample_0_eq_some x w h pd _ _ _ hx)

theorem getsample_0_stored (x : Buffer) {w h pd i j l : Int}
    (hx : (x.length : Int) = w * h * pd)
    (hi : 0 ≤ i) (hw : i < w) (hj : 0 ≤ j) (hh : j < h) (hl : 0 ≤ l) (hp : l < pd) :
    0 ≤ pd * (j * w + i) + l ∧ pd * (j * w + i) + l < x.length ∧
      ∃ v, x[(pd * (j * w + i) + l).toNat]? = some v ∧ getsample_0 x w h pd i j l = some v := by
  have e : pd * (j * w + i) + l = (j * w + i) * pd + l := by ring
  have h0 : 0 ≤ pd * (j * w + i) + l := by rw [e]; exact index_nonneg hi hw hj hl hp
  have h1 : pd * (j * w + i) + l < x.length := by rw [e, hx]; exact index_lt hi hw hh hl hp
  obtain ⟨v, hv, hv'⟩ := load_eq_some h0 h1
  exact ⟨h0, h1, v, hv', by rw [getsample_0_of_inside x hi hw hj hh hl hp, hv]⟩

theorem ceil_half (w : Int) : ⌈(w : ℚ) / 2⌉ = (w + 1) / 2 := by
  rw [Int.ceil_eq_iff]
  have h2 : ((w + 1) / 2 : Int) * 2 + (w + 1) % 2 = w + 1 := Int.ediv_add_emod' _ _
  have h3 : 0 ≤ (w + 1) % 2 := Int.emod_nonneg _ (by norm_num)
  have h4 : (w + 1) % 2 < 2 := Int.emod_lt_of_pos _ (by norm_num)
  have h5 : ((((w + 1) / 2 : Int) * 2 + (w + 1) % 2 : Int) : ℚ) = ((w + 1 : Int) : ℚ) := by
    rw [h2]
  push_cast at h5
  have h6 : (0 : ℚ) ≤ (((w + 1) % 2 : Int) : ℚ) := by exact_mod_cast h3
  have h7 : (((w + 1) % 2 : Int) : ℚ) ≤ 1 := by
    have : (w + 1) % 2 ≤ 1 := by omega
    exact_mod_cast this
  constructor <;> linarith

theorem zoom_size_ok_half (w : Int) : zoom_size_ok ⌈(w : ℚ) / 2⌉ w = true := by
  rw [ceil_half]
  simp only [zoom_size_ok, decide_eq_true_eq, abs_int, wrap32]
  split <;> omega

theorem zoom_eq_fill (out : Buffer) (ow oh : Int) (inp : Buffer) (iw ih pd : Int)
    (haw : zoom_size_ok ow iw = true) (hah : zoom_size_ok oh ih = true) :
    zoom_out_by_factor_two out ow oh inp iw ih pd =
      fill out ow oh pd (fun i j l => zoom_pixel inp iw ih pd i j l)
        (fun i j l => (ow * j + i) * pd + l) := by
  simp [zoom_out_by_factor_two, haw, hah, fill]

/-- The value of line 76 for the four samples `a0`, `a1`, `a2`, `a3`. -/
theorem zoomV_inside (f : View) {ow oh pd i j l : Int} (hi : 0 ≤ i) (hiw : i < ow)
    (hj : 0 ≤ j) (hjh : j < oh) (hl : 0 ≤ l) (hlp : l < pd) :
    zoomV f ow oh pd i j l =
      ((((f (2 * i) (2 * j) l).fadd (f (2 * i + 1) (2 * j) l)).fadd
        (f (2 * i) (2 * j + 1) l)).fadd (f (2 * i + 1) (2 * j + 1) l)).fdiv 4 := by
  unfold zoomV
  rw [if_neg]
  omega

theorem zoom_pixel_eq_some (inp : Buffer) (iw ih pd i j l : Int)
    (hin : (inp.length : Int) = iw * ih * pd) :
    zoom_pixel inp iw ih pd i j l =
      some (((((sampleV inp iw ih pd (2 * i) (2 * j) l).fadd
        (sampleV inp iw ih pd (2 * i + 1) (2 * j) l)).fadd
        (sampleV inp iw ih pd (2 * i) (2 * j + 1) l)).fadd
        (sampleV inp iw ih pd (2 * i + 1) (2 * j + 1) l)).fdiv 4) := by
  simp only [zoom_pixel, getsample_0_eq_some inp iw ih pd _ _ _ hin]

theorem cfor_sum {M : Type} [AddCommMonoid M] (body : M → Int → Option M) (t : Int → M)
    (lo hi : Int) (r0 : M)
    (hbody : ∀ r k, lo ≤ k → k < hi → body r k = some (r + t k)) :
    cfor lo hi r0 body = some (r0 + sumIco lo hi t) := by
  by_cases hle : lo ≤ hi
  · obtain ⟨r, h1, h2⟩ := cfor_inv body (fun k r => r = r0 + sumFrom t lo (k - lo).toNat)
      lo hi r0 hle (by simp [sumFrom]) (by
        intro k r hk1 hk2 hr
        refine ⟨r + t k, hbody r k hk1 hk2, ?_⟩
        have e : (k + 1 - lo).toNat = (k - lo).toNat + 1 := by omega
        have e2 : lo + ((k - lo).toNat : Int) = k := by omega
        show r + t k = r0 + sumFrom t lo (k + 1 - lo).toNat
        rw [e, sumFrom, e2, hr, add_assoc])
    rw [h1, h2]; rfl
  · have e : (hi - lo).toNat = 0 := by omega
    rw [cfor_empty _ _ _ _ (by omega)]
    simp [sumIco, e, sumFrom]

theorem eval_sum_eq (A B : Buffer) (w h pd : Int) (d : Int × Int)
    (hA : (A.length : Int) = w * h * pd) (hB : (B.length : Int) = w * h * pd) :
    eval_sum A B w h pd d = some (evalV (sampleV A w h pd) (sampleV B w h pd) w h pd d) := by
  have inner : ∀ (r : Fl) (i j : Int),
      (cfor 0 pd r fun r l => eval_term A B w h pd d (npoints w h pd) r i j l) =
      some (r + sumIco 0 pd fun l =>
        sq_term (sampleV A w h pd i j l) (sampleV B w h pd (i - d.1) (j - d.2) l)
          (npoints w h pd)) := by
    intro r i j
    apply cfor_sum
    intro r l _ _
    simp only [eval_term, getsample_0_eq_some A w h pd _ _ _ hA,
      getsample_0_eq_some B w h pd _ _ _ hB]
    rfl
  have mid : ∀ (r : Fl) (j : Int),
      (cfor (Int.tdiv w 16) (w - Int.tdiv w 16) r fun r i =>
        cfor 0 pd r fun r l => eval_term A B w h pd d (npoints w h pd) r i j l) =
      some (r + sumIco (Int.tdiv w 16) (w - Int.tdiv w 16) fun i => sumIco 0 pd fun l =>
        sq_term (sampleV A w h pd i j l) (sampleV B w h pd (i - d.1) (j - d.2) l)
          (npoints w h pd)) := by
    intro r j
    apply cfor_sum
    intro r i _ _
    exact inner r i j
  have outer := cfor_sum (fun r j => cfor (Int.tdiv w 16) (w - Int.tdiv w 16) r fun r i =>
        cfor 0 pd r fun r l => eval_term A B w h pd d (npoints w h pd) r i j l)
      (fun j => sumIco (Int.tdiv w 16) (w - Int.tdiv w 16) fun i => sumIco 0 pd fun l =>
        sq_term (sampleV A w h pd i j l) (sampleV B w h pd (i - d.1) (j - d.2) l)
          (npoints w h pd))
      (Int.tdiv h 16) (h - Int.tdiv h 16) 0 (fun r j _ _ => mid r j)
  rw [zero_add] at outer
  exact outer

theorem eval_displacement_eq (A B : Buffer) (w h pd : Int) (d : Int × Int)
    (hA : (A.length : Int) = w * h * pd) (hB : (B.length : Int) = w * h * pd) :
    eval_displacement A B w h pd d =
      some (Dist.sqrt (evalV (sampleV A w h pd) (sampleV B w h pd) w h pd d)) := by
  simp only [eval_displacement, eval_sum_eq A B w h pd d hA hB]

theorem sumFrom_zero {M : Type} [AddCommMonoid M] (t : Int → M) (lo : Int) (n : Nat)
    (h : ∀ k, lo ≤ k → k < lo + n → t k = 0) : sumFrom t lo n = 0 := by
  induction n with
  | zero => rfl
  | succ n ih =>
    rw [sumFrom, ih (fun k h1 h2 => h k h1 (by push_cast; omega)),
      h (lo + n) (by omega) (by push_cast; omega), add_zero]

theorem sumIco_zero {M : Type} [AddCommMonoid M] (t : Int → M) (lo hi : Int)
    (h : ∀ k, lo ≤ k → k < hi → t k = 0) :
    sumIco lo hi t = 0 :=
  sumFrom_zero t lo _ (fun k h1 h2 => h k h1 (by omega))

theorem sumIco_empty {M : Type} [AddCommMonoid M] (t : Int → M) (lo hi : Int) (h : hi ≤ lo) :
    sumIco lo hi t = 0 :=
  sumIco_zero t lo hi (fun k h1 h2 => by omega)

theorem sumFrom_nonneg (t : Int → ℚ) (lo : Int) (n : Nat)
    (h : ∀ k, lo ≤ k → k < lo + n → 0 ≤ t k) : 0 ≤ sumFrom t lo n := by
  induction n with
  | zero => exact le_rfl
  | succ n ih =>
    rw [sumFrom]
    exact add_nonneg (ih (fun k h1 h2 => h k h1 (by push_cast; omega)))
      (h (lo + n) (by omega) (by push_cast; omega))

theorem sumIco_nonneg (t : Int → ℚ) (lo hi : Int) (h : ∀ k, lo ≤ k → k < hi → 0 ≤ t k) :
    0 ≤ sumIco lo hi t :=
  sumFrom_nonneg t lo _ (fun k h1 h2 => h k h1 (by omega))

theorem sumIco_eq_sum {M : Type} [AddCommMonoid M] (t : Int → M) (lo hi : Int) :
    sumIco lo hi t = ∑ k ∈ Finset.Ico lo hi, t k := by
  by_cases hle : lo ≤ hi
  · have key : ∀ n : Nat, sumFrom t lo n = ∑ k ∈ Finset.Ico lo (lo + n), t k := by
      intro n
      induction n with
      | zero => simp [sumFrom]
      | succ n ih =>
        have e : lo + ((n + 1 : Nat) : Int) = lo + n + 1 := by push_cast; ring
        have e2 : Finset.Ico lo (lo + n + 1) = insert (lo + (n : Int)) (Finset.Ico lo (lo + n)) := by
          ext k; simp only [Finset.mem_Ico, Finset.mem_insert]; omega
        rw [sumFrom, ih, e, e2, Finset.sum_insert (by simp), add_comm]
    have e : lo + ((hi - lo).toNat : Int) = hi := by omega
    rw [sumIco, key, e]
  · have e : (hi - lo).toNat = 0 := by omega
    rw [sumIco, e, Finset.Ico_eq_empty (by omega)]
    rfl

theorem sumFrom_congr {M : Type} [AddCommMonoid M] (t t' : Int → M) (lo : Int) (n : Nat)
    (h : ∀ k, lo ≤ k → k < lo + n → t k = t' k) : sumFrom t lo n = sumFrom t' lo n := by
  induction n with
  | zero => rfl
  | succ n ih =>
    rw [sumFrom, sumFrom, ih (fun k h1 h2 => h k h1 (by push_cast; omega)),
      h (lo + n) (by omega) (by push_cast; omega)]

theorem sumIco_congr {M : Type} [AddCommMonoid M] (t t' : Int → M) (lo hi : Int)
    (h : ∀ k, lo ≤ k → k < hi → t k = t' k) : sumIco lo hi t = sumIco lo hi t' :=
  sumFrom_congr t t' lo _ (fun k h1 h2 => h k h1 (by omega))

theorem sumFrom_fin (t : Int → ℚ) (lo : Int) (n : Nat) :
    sumFrom (fun k => Fl.fin (t k)) lo n = Fl.fin (sumFrom t lo n) := by
  induction n with
  | zero => rfl
  | succ n ih => rw [sumFrom, sumFrom, ih]; rfl

theorem sumIco_fin (t : Int → ℚ) (lo hi : Int) :
    sumIco lo hi (fun k => Fl.fin (t k)) = Fl.fin (sumIco lo hi t) :=
  sumFrom_fin t lo _

theorem sumFrom_const (c : ℚ) (lo : Int) (n : Nat) :
    sumFrom (fun _ => c) lo n = (n : ℚ) * c := by
  induction n with
  | zero => simp [sumFrom]
  | succ n ih => rw [sumFrom, ih]; push_cast; ring

theorem sumIco_const (c : ℚ) (lo hi : Int) (h : lo ≤ hi) :
    sumIco lo hi (fun _ => c) = ((hi - lo : Int) : ℚ) * c := by
  rw [sumIco, sumFrom_const]
  have e : (((hi - lo).toNat : Nat) : Int) = hi - lo := by omega
  have e2 : (((hi - lo).toNat : Nat) : ℚ) = ((hi - lo : Int) : ℚ) := by exact_mod_cast e
  rw [e2]

/-- The term of line 101 on two finite samples, for a divisor that is not zero. -/
theorem sq_term_fin (a b : ℚ) {n : Int} (hn : n ≠ 0) :
    sq_term (Fl.fin a) (Fl.fin b) n = Fl.fin ((a - b) * (a - b) / (1 * (n : ℚ))) := by
  have hq : (1 * (n : ℚ)) ≠ 0 := by
    rw [one_mul]
    exact_mod_cast hn
  show (if (1 * (n : ℚ)) = 0 then _ else Fl.fin ((a + -b) * (a + -b) / (1 * (n : ℚ)))) = _
  rw [if_neg hq, sub_eq_add_neg]

/-- On accessors with finite values and for a divisor that is not zero, the accumulated
value is finite: the sum of the squared differences divided by `npoints`. -/
theorem evalV_finite (f g : View) (fq gq : ViewQ) (w h pd : Int) (d : Int × Int)
    (hf : ∀ i j l, f i j l = Fl.fin (fq i j l)) (hg : ∀ i j l, g i j l = Fl.fin (gq i j l))
    (hn : npoints w h pd ≠ 0) :
    evalV f g w h pd d = Fl.fin (evalQ fq gq w h pd d) := by
  unfold evalV evalQ
  rw [← sumIco_fin]
  refine sumIco_congr _ _ _ _ (fun j _ _ => ?_)
  rw [← sumIco_fin]
  refine sumIco_congr _ _ _ _ (fun i _ _ => ?_)
  rw [← sumIco_fin]
  refine sumIco_congr _ _ _ _ (fun l _ _ => ?_)
  rw [hf, hg, sq_term_fin _ _ hn]

theorem sampleV_inside (x : Buffer) {w h pd i j l : Int}
    (hi : 0 ≤ i) (hw : i < w) (hj : 0 ≤ j) (hh : j < h) (hl : 0 ≤ l) (hp : l < pd) :
    sampleV x w h pd i j l = x.getD (pd * (j * w + i) + l).toNat 0 := by
  have e : pd * (j * w + i) + l = (j * w + i) * pd + l := by ring
  have h0 : 0 ≤ pd * (j * w + i) + l := by rw [e]; exact index_nonneg hi hw hj hl hp
  simp [sampleV, getsample_0_of_inside x hi hw hj hh hl hp, load, h0,
    List.getD_eq_getElem?_getD]

/-- On a buffer of finite samples every bounded sample is finite. -/
theorem sampleV_finite (x : Buffer) (w h pd : Int) (hx : finite_samples x) (i j l : Int) :
    sampleV x w h pd i j l = Fl.fin (sampleQ x w h pd i j l) := by
  have key : ∃ q : ℚ, sampleV x w h pd i j l = Fl.fin q := by
    unfold sampleV getsample_0
    split
    · exact ⟨0, rfl⟩
    · unfold load
      split
      · cases hv : x[(pd * (j * w + i) + l).toNat]? with
        | none => exact ⟨0, rfl⟩
        | some v =>
          obtain ⟨q, hq⟩ := hx v (List.getElem?_mem hv)
          exact ⟨q, by simp [hq]⟩
      · exact ⟨0, rfl⟩
  obtain ⟨q, hq⟩ := key
  unfold sampleQ
  rw [hq]
  rfl

/-- The cropped window has at most as many triples as the image has samples. -/
theorem window_le_size {w h pd : Int} (hw : 0 ≤ w) (hh : 0 ≤ h) (hp : 0 ≤ pd) :
    (w - 2 * (w / 16)) * (h - 2 * (h / 16)) * pd ≤ w * h * pd := by
  have h1 : (w - 2 * (w / 16)) * (h - 2 * (h / 16)) ≤ w * h :=
    mul_le_mul (by omega) (by omega) (by omega) hw
  exact mul_le_mul_of_nonneg_right h1 hp

/-- The 32-bit product `npoints` is the mathematical product when that is at most
`INT_MAX`. -/
theorem npoints_eq {w h pd : Int} (hw : 0 ≤ w) (hh : 0 ≤ h) (hp : 0 ≤ pd)
    (hn : (w - 2 * (w / 16)) * (h - 2 * (h / 16)) * pd ≤ 2147483647) :
    npoints w h pd = (w - 2 * (w / 16)) * (h - 2 * (h / 16)) * pd := by
  have ew : Int.tdiv w 16 = w / 16 := Int.tdiv_eq_ediv hw (by norm_num)
  have eh : Int.tdiv h 16 = h / 16 := Int.tdiv_eq_ediv hh (by norm_num)
  have hX : 0 ≤ (w - 2 * (w / 16)) * (h - 2 * (h / 16)) :=
    mul_nonneg (by omega) (by omega)
  unfold npoints
  rw [ew, eh]
  generalize (w - 2 * (w / 16)) * (h - 2 * (h / 16)) = X at hX hn
  rcases hp.lt_or_eq with hp' | hp'
  · have h1 : X ≤ X * pd := by nlinarith
    have e1 : wrap32 X = X := by unfold wrap32; omega
    rw [e1]
    unfold wrap32
    have h0 : 0 ≤ X * pd := mul_nonneg hX hp
    omega
  · subst hp'
    simp [wrap32]

theorem evalQ_eq_spec_mean_sq (A B : Buffer) (w h pd : Int) (d : Int × Int)
    (hw : 0 ≤ w) (hh : 0 ≤ h) (hp : 0 ≤ pd)
    (hn : (w - 2 * (w / 16)) * (h - 2 * (h / 16)) * pd ≤ 2147483647) :
    evalQ (sampleQ A w h pd) (sampleQ B w h pd) w h pd d = spec_mean_sq A B w h pd d := by
  have ew : Int.tdiv w 16 = w / 16 := Int.tdiv_eq_ediv hw (by norm_num)
  have eh : Int.tdiv h 16 = h / 16 := Int.tdiv_eq_ediv hh (by norm_num)
  have hw0 : 0 ≤ w / 16 := Int.ediv_nonneg hw (by norm_num)
  have hh0 : 0 ≤ h / 16 := Int.ediv_nonneg hh (by norm_num)
  have hcard : ((spec_window w h pd).card : ℚ)
      = (((w - 2 * (w / 16)) * (h - 2 * (h / 16)) * pd : Int) : ℚ) := by
    simp only [spec_window, Finset.card_product, Int.card_Ico]
    have e1 : (((w - w / 16 - w / 16).toNat : Nat) : Int) = w - 2 * (w / 16) := by omega
    have e2 : (((h - h / 16 - h / 16).toNat : Nat) : Int) = h - 2 * (h / 16) := by omega
    have e3 : (((pd - 0).toNat : Nat) : Int) = pd := by omega
    have : ((((w - w / 16 - w / 16).toNat * ((h - h / 16 - h / 16).toNat * (pd - 0).toNat) : Nat)
        : Int)) = (w - 2 * (w / 16)) * (h - 2 * (h / 16)) * pd := by
      push_cast [e1, e2, e3]; ring
    exact_mod_cast this
  simp only [evalQ, spec_mean_sq, npoints_eq hw hh hp hn, ew, eh, sumIco_eq_sum, hcard]
  simp only [spec_window, Finset.sum_product, Finset.sum_div, one_mul]
  rw [Finset.sum_comm]
  refine Finset.sum_congr rfl (fun i hi => Finset.sum_congr rfl (fun j hj =>
    Finset.sum_congr rfl (fun l hl => ?_)))
  simp only [Finset.mem_Ico] at hi hj hl
  have e : sampleQ A w h pd i j l = (A.getD (pd * (j * w + i) + l).toNat 0).toQ := by
    unfold sampleQ
    rw [sampleV_inside A (by omega) (by omega) (by omega) (by omega) hl.1 hl.2]
  rw [e]
  ring

theorem evalQ_nonneg (f g : ViewQ) (w h pd : Int) (d : Int × Int)
    (hn : 0 ≤ npoints w h pd) : 0 ≤ evalQ f g w h pd d := by
  have hq : (0 : ℚ) ≤ ((npoints w h pd : Int) : ℚ) := by exact_mod_cast hn
  refine sumIco_nonneg _ _ _ (fun j _ _ => sumIco_nonneg _ _ _ (fun i _ _ =>
    sumIco_nonneg _ _ _ (fun l _ _ => ?_)))
  exact div_nonneg (mul_self_nonneg _) (by rw [one_mul]; exact hq)

/-- For `w, h, pd ≥ 1` no factor of the product of line 94 is below `1`. -/
theorem npoints_pos {w h pd : Int} (hw : 1 ≤ w) (hh : 1 ≤ h) (hp : 1 ≤ pd)
    (hn : (w - 2 * (w / 16)) * (h - 2 * (h / 16)) * pd ≤ 2147483647) :
    1 ≤ npoints w h pd := by
  rw [npoints_eq (by omega) (by omega) (by omega) hn]
  have h1 : 1 ≤ w - 2 * (w / 16) := by omega
  have h2 : 1 ≤ h - 2 * (h / 16) := by omega
  have h3 : 1 ≤ (w - 2 * (w / 16)) * (h - 2 * (h / 16)) := by nlinarith
  nlinarith

/-- On finite samples and for a product of line 94 between `1` and `INT_MAX`, the function
returns the root of the mean of the squared differences, or `+∞` when that root
reaches `flt_overflow`. -/
theorem eval_displacement_finite (A B : Buffer) (w h pd : Int) (d : Int × Int)
    (hw : 1 ≤ w) (hh : 1 ≤ h) (hp : 1 ≤ pd)
    (hA : (A.length : Int) = w * h * pd) (hB : (B.length : Int) = w * h * pd)
    (hfA : finite_samples A) (hfB : finite_samples B)
    (hn : (w - 2 * (w / 16)) * (h - 2 * (h / 16)) * pd ≤ 2147483647) :
    0 ≤ spec_mean_sq A B w h pd d ∧
    eval_displacement A B w h pd d
      = some (Dist.sqrt (Fl.fin (spec_mean_sq A B w h pd d))) := by
  have hpos := npoints_pos hw hh hp hn
  have e1 := evalV_finite (sampleV A w h pd) (sampleV B w h pd) (sampleQ A w h pd)
    (sampleQ B w h pd) w h pd d (sampleV_finite A w h pd hfA) (sampleV_finite B w h pd hfB)
    (by omega)
  have e2 := evalQ_eq_spec_mean_sq A B w h pd d (by omega) (by omega) (by omega) hn
  have e3 := evalQ_nonneg (sampleQ A w h pd) (sampleQ B w h pd) w h pd d (by omega)
  rw [e2] at e3
  refine ⟨e3, ?_⟩
  rw [eval_displacement_eq A B w h pd d hA hB, e1, e2]

/-- When the product of line 94 is zero the loop nest adds no term. -/
theorem evalV_empty (f g : View) (w h pd : Int) (d : Int × Int)
    (hw : 0 ≤ w) (hh : 0 ≤ h)
    (h0 : (w - 2 * (w / 16)) * (h - 2 * (h / 16)) * pd = 0) :
    evalV f g w h pd d = 0 := by
  have ew : Int.tdiv w 16 = w / 16 := Int.tdiv_eq_ediv hw (by norm_num)
  have eh : Int.tdiv h 16 = h / 16 := Int.tdiv_eq_ediv hh (by norm_num)
  rcases mul_eq_zero.mp h0 with h1 | h1
  · rcases mul_eq_zero.mp h1 with h2 | h2
    · exact sumIco_zero _ _ _ (fun j _ _ => sumIco_empty _ _ _ (by rw [ew]; omega))
    · exact sumIco_empty _ _ _ (by rw [eh]; omega)
  · exact sumIco_zero _ _ _ (fun j _ _ => sumIco_zero _ _ _ (fun i _ _ =>
      sumIco_empty _ _ _ (by omega)))

/-- On finite samples and for a product of line 94 of at most `INT_MAX`, the accumulated
value is the sum of the squared differences divided by the number of its terms. -/
theorem eval_sum_finite (A B : Buffer) (w h pd : Int) (d : Int × Int)
    (hw : 0 ≤ w) (hh : 0 ≤ h) (hp : 0 ≤ pd)
    (hA : (A.length : Int) = w * h * pd) (hB : (B.length : Int) = w * h * pd)
    (hfA : finite_samples A) (hfB : finite_samples B)
    (hn : (w - 2 * (w / 16)) * (h - 2 * (h / 16)) * pd ≤ 2147483647) :
    eval_sum A B w h pd d = some (Fl.fin (spec_mean_sq A B w h pd d)) := by
  rw [eval_sum_eq A B w h pd d hA hB]
  by_cases h0 : npoints w h pd = 0
  · rw [npoints_eq hw hh hp hn] at h0
    rw [evalV_empty _ _ w h pd d hw hh h0]
    have hcard : ((spec_window w h pd).card : ℚ) = 0 := by
      have e1 : (((w - w / 16 - w / 16).toNat : Nat) : Int) = w - 2 * (w / 16) := by omega
      have e2 : (((h - h / 16 - h / 16).toNat : Nat) : Int) = h - 2 * (h / 16) := by omega
      have e3 : (((pd - 0).toNat : Nat) : Int) = pd := by omega
      have : ((((w - w / 16 - w / 16).toNat * ((h - h / 16 - h / 16).toNat * (pd - 0).toNat)
          : Nat) : Int)) = 0 := by
        push_cast [e1, e2, e3]; rw [← h0]; ring
      simp only [spec_window, Finset.card_product, Int.card_Ico]
      exact_mod_cast this
    unfold spec_mean_sq
    rw [hcard, div_zero]
    rfl
  · rw [evalV_finite _ _ (sampleQ A w h pd) (sampleQ B w h pd) w h pd d
      (sampleV_finite A w h pd hfA) (sampleV_finite B w h pd hfB) h0,
      evalQ_eq_spec_mean_sq A B w h pd d hw hh hp hn]

theorem Dist.sqrt_fin_of_lt {q : ℚ} (h0 : 0 ≤ q) (h1 : q < flt_overflow * flt_overflow) :
    Dist.sqrt (Fl.fin q) = Dist.fin (Surd.sqrt q) := by
  show (if q < 0 then Dist.nan else if flt_overflow * flt_overflow ≤ q then Dist.inf
    else Dist.fin (Surd.sqrt q)) = _
  rw [if_neg (not_lt.mpr h0), if_neg (not_le.mpr h1)]

theorem Dist.sqrt_fin_of_le {q : ℚ} (h0 : 0 ≤ q) (h1 : flt_overflow * flt_overflow ≤ q) :
    Dist.sqrt (Fl.fin q) = Dist.inf := by
  show (if q < 0 then Dist.nan else if flt_overflow * flt_overflow ≤ q then Dist.inf
    else Dist.fin (Surd.sqrt q)) = _
  rw [if_neg (not_lt.mpr h0), if_pos h1]

theorem Dist.sqrt_zero : Dist.sqrt (Fl.fin 0) = Dist.fin (Surd.sqrt 0) := by
  decide!

theorem finite_samples_replicate (n : Nat) (q : ℚ) :
    finite_samples (List.replicate n (Fl.fin q)) := by
  intro v hv
  exact ⟨q, (List.mem_replicate.mp hv).2⟩

theorem sampleQ_replicate (n : Nat) (q : ℚ) (w h pd : Int)
    (hn : (n : Int) = w * h * pd) {i j l : Int}
    (hi : 0 ≤ i) (hw : i < w) (hj : 0 ≤ j) (hh : j < h) (hl : 0 ≤ l) (hp : l < pd) :
    sampleQ (List.replicate n (Fl.fin q)) w h pd i j l = q := by
  have hlen : ((List.replicate n (Fl.fin q)).length : Int) = w * h * pd := by
    rw [List.length_replicate]; exact hn
  obtain ⟨_, _, v, hv, hg⟩ := getsample_0_stored _ hlen hi hw hj hh hl hp
  have hmem : v ∈ List.replicate n (Fl.fin q) := List.getElem?_mem hv
  have e : v = Fl.fin q := (List.mem_replicate.mp hmem).2
  simp [sampleQ, sampleV, hg, e, Fl.toQ]

theorem sampleQ_replicate_zero (n : Nat) (w h pd i j l : Int) :
    sampleQ (List.replicate n (Fl.fin 0)) w h pd i j l = 0 := by
  unfold sampleQ sampleV getsample_0
  split
  · rfl
  · unfold load
    split
    · cases hv : (List.replicate n (Fl.fin 0))[(pd * (j * w + i) + l).toNat]? with
      | none => rfl
      | some v =>
        have e : v = Fl.fin 0 := (List.mem_replicate.mp (List.getElem?_mem hv)).2
        rw [e]
        rfl
    · rfl

/-- C8, as amended (Distance Evaluator): for images of `w*h*pd` finite samples (no NaN, no
infinity) with `w, h, pd ≥ 1` and `w*h*pd` at most `INT_MAX`,
the mean of `(A(i,j,l) - getsample_0(B, i-dx, j-dy, l))^2` over `l ∈ [0,pd)`,
`i ∈ [woff, w-woff)`, `j ∈ [hoff, h-hoff)`, with `woff = floor(w/16)` and
`hoff = floor(h/16)`, is not negative, and `eval_displacement` returns its square root,
a non-negative number (arithmetic over exact reals); when that root is `2^128 - 2^103` or
more, the `float` returned is `+∞`. -/
theorem eval_displacement_contract (A B : Buffer) (w h pd : Int) (d : Int × Int)
    (hw : 1 ≤ w) (hh : 1 ≤ h) (hp : 1 ≤ pd)
    (hA : (A.length : Int) = w * h * pd) (hB : (B.length : Int) = w * h * pd)
    (hfA : finite_samples A) (hfB : finite_samples B)
    (hmax : w * h * pd ≤ 2147483647) :
    0 ≤ spec_mean_sq A B w h pd d ∧
    (spec_mean_sq A B w h pd d < flt_overflow * flt_overflow →
      ∃ s, eval_displacement A B w h pd d = some (Dist.fin s) ∧ 0 ≤ s.toReal ∧
        s.radicand = spec_mean_sq A B w h pd d ∧
        s.toReal = spec_distance A B w h pd d) ∧
    (flt_overflow * flt_overflow ≤ spec_mean_sq A B w h pd d →
      eval_displacement A B w h pd d = some Dist.inf) := by
  obtain ⟨h0, he⟩ := eval_displacement_finite A B w h pd d hw hh hp hA hB hfA hfB
    (le_trans (window_le_size (by omega) (by omega) (by omega)) hmax)
  refine ⟨h0, fun hlt => ?_, fun hle => ?_⟩
  · refine ⟨Surd.sqrt (spec_mean_sq A B w h pd d), ?_, Real.sqrt_nonneg _, ?_, ?_⟩
    · rw [he, Dist.sqrt_fin_of_lt h0 hlt]
    · simp only [Surd.sqrt, max_eq_left h0]
    · simp only [Surd.toReal, spec_distance, Surd.sqrt, max_eq_left h0]
  · rw [he, Dist.sqrt_fin_of_le h0 hle]

/-- Witness of C8: two 2x1 one-channel images and the displacement `(1,0)`. -/
theorem eval_displacement_contract_witness :
    0 ≤ spec_mean_sq [1, 2] [3, 5] 2 1 1 (1, 0) ∧
    (spec_mean_sq [1, 2] [3, 5] 2 1 1 (1, 0) < flt_overflow * flt_overflow →
      ∃ s, eval_displacement [1, 2] [3, 5] 2 1 1 (1, 0) = some (Dist.fin s) ∧ 0 ≤ s.toReal ∧
        s.radicand = spec_mean_sq [1, 2] [3, 5] 2 1 1 (1, 0) ∧
        s.toReal = spec_distance [1, 2] [3, 5] 2 1 1 (1, 0)) ∧
    (flt_overflow * flt_overflow ≤ spec_mean_sq [1, 2] [3, 5] 2 1 1 (1, 0) →
      eval_displacement [1, 2] [3, 5] 2 1 1 (1, 0) = some Dist.inf) :=
  eval_displacement_contract [1, 2] [3, 5] 2 1 1 (1, 0) (by decide) (by decide) (by decide)
    (by decide) (by decide)
    (fun v hv => by
      simp only [List.mem_cons, List.mem_singleton, List.not_mem_nil, or_false] at hv
      rcases hv with rfl | rfl
      · exact ⟨1, rfl⟩
      · exact ⟨2, rfl⟩)
    (fun v hv => by
      simp only [List.mem_cons, List.mem_singleton, List.not_mem_nil, or_false] at hv
      rcases hv with rfl | rfl
      · exact ⟨3, rfl⟩
      · exact ⟨5, rfl⟩)
    (by decide)

/-- C8 fails as stated: for `w = 2`, `h = 1`, `pd = 2^30` the `int` product `npoints` is
`-2^31`; on the image `A` of constant value `1` and the image `B` of constant value `0`
the accumulated sum is `-1` and `eval_displacement` returns NaN, not a non-negative
number. -/
theorem eval_displacement_contract_fails :
    npoints 2 1 1073741824 = -2147483648 ∧
    eval_displacement (List.replicate 2147483648 (Fl.fin 1))
      (List.replicate 2147483648 (Fl.fin 0)) 2 1 1073741824 (0, 0) = some Dist.nan := by
  have hnp : npoints 2 1 1073741824 = -2147483648 := by decide
  refine ⟨hnp, ?_⟩
  have hlen : ((2147483648 : Nat) : Int) = 2 * 1 * 1073741824 := by norm_num
  rw [eval_displacement_eq _ _ 2 1 1073741824 (0, 0)
      (by rw [List.length_replicate]; exact hlen) (by rw [List.length_replicate]; exact hlen),
    evalV_finite _ _ (sampleQ (List.replicate 2147483648 (Fl.fin 1)) 2 1 1073741824)
      (sampleQ (List.replicate 2147483648 (Fl.fin 0)) 2 1 1073741824) 2 1 1073741824 (0, 0)
      (sampleV_finite _ 2 1 1073741824 (finite_samples_replicate _ 1))
      (sampleV_finite _ 2 1 1073741824 (finite_samples_replicate _ 0))
      (by rw [hnp]; decide)]
  have t1 : Int.tdiv 1 16 = 0 := by decide
  have t2 : Int.tdiv 2 16 = 0 := by decide
  have hq : evalQ (sampleQ (List.replicate 2147483648 (Fl.fin 1)) 2 1 1073741824)
      (sampleQ (List.replicate 2147483648 (Fl.fin 0)) 2 1 1073741824) 2 1 1073741824 (0, 0)
      = -1 := by
    unfold evalQ
    rw [hnp, t1, t2]
    have inner : ∀ i j : Int, 0 ≤ i → i < 2 → 0 ≤ j → j < 1 →
        (sumIco 0 1073741824 fun l =>
          (sampleQ (List.replicate 2147483648 (Fl.fin 1)) 2 1 1073741824 i j l
            - sampleQ (List.replicate 2147483648 (Fl.fin 0)) 2 1 1073741824
              (i - ((0 : Int), (0 : Int)).1) (j - ((0 : Int), (0 : Int)).2) l)
          * (sampleQ (List.replicate 2147483648 (Fl.fin 1)) 2 1 1073741824 i j l
            - sampleQ (List.replicate 2147483648 (Fl.fin 0)) 2 1 1073741824
              (i - ((0 : Int), (0 : Int)).1) (j - ((0 : Int), (0 : Int)).2) l)
          / (1 * (((-2147483648 : Int)) : ℚ))) = -(1 / 2) := by
      intro i j hi hi2 hj hj1
      rw [sumIco_congr _ (fun _ => (-(1 / 2147483648) : ℚ)) 0 1073741824 (fun l hl hl2 => by
        rw [sampleQ_replicate 2147483648 1 2 1 1073741824 hlen hi hi2 hj hj1 hl hl2,
          sampleQ_replicate_zero]
        norm_num), sumIco_const _ 0 1073741824 (by norm_num)]
      norm_num
    rw [sumIco_congr _ (fun _ => (-1 : ℚ)) 0 (1 - 0) (fun j hj hj1 => by
      rw [sumIco_congr _ (fun _ => (-(1 / 2) : ℚ)) 0 (2 - 0) (fun i hi hi2 =>
        inner i j hi (by omega) hj (by omega)), sumIco_const _ 0 (2 - 0) (by norm_num)]
      norm_num), sumIco_const _ 0 (1 - 0) (by norm_num)]
    norm_num
  rw [hq]
  decide!

/-- C9, as amended (Self-distance): for every image `A` of `w*h*pd` finite samples
(no NaN, no infinity) with `w, h, pd ≥ 0` and `w*h*pd` at most `INT_MAX`,
`eval_displacement(A, A, w, h, pd, (0,0))` returns `0` (the root of `0`). -/
theorem eval_displacement_self (A : Buffer) (w h pd : Int)
    (hw : 0 ≤ w) (hh : 0 ≤ h) (hp : 0 ≤ pd)
    (hA : (A.length : Int) = w * h * pd) (hfA : finite_samples A)
    (hmax : w * h * pd ≤ 2147483647) :
    ∃ s, eval_displacement A A w h pd (0, 0) = some (Dist.fin s) ∧ s.radicand = 0 ∧
      s.toReal = 0 := by
  have hn := le_trans (window_le_size hw hh hp) hmax
  have ew : Int.tdiv w 16 = w / 16 := Int.tdiv_eq_ediv hw (by norm_num)
  have eh : Int.tdiv h 16 = h / 16 := Int.tdiv_eq_ediv hh (by norm_num)
  have hz : evalV (sampleV A w h pd) (sampleV A w h pd) w h pd (0, 0) = Fl.fin 0 := by
    by_cases h0 : npoints w h pd = 0
    · rw [npoints_eq hw hh hp hn] at h0
      rcases mul_eq_zero.mp h0 with h1 | h1
      · rcases mul_eq_zero.mp h1 with h2 | h2
        · exact sumIco_zero _ _ _ (fun j _ _ => sumIco_empty _ _ _ (by rw [ew]; omega))
        · exact sumIco_empty _ _ _ (by rw [eh]; omega)
      · exact sumIco_zero _ _ _ (fun j _ _ => sumIco_zero _ _ _ (fun i _ _ =>
          sumIco_empty _ _ _ (by omega)))
    · rw [evalV_finite _ _ (sampleQ A w h pd) (sampleQ A w h pd) w h pd (0, 0)
        (sampleV_finite A w h pd hfA) (sampleV_finite A w h pd hfA) h0]
      congr 1
      refine sumIco_zero _ _ _ (fun j _ _ => sumIco_zero _ _ _ (fun i _ _ =>
        sumIco_zero _ _ _ (fun l _ _ => ?_)))
      simp
  refine ⟨Surd.sqrt 0, ?_, ?_, ?_⟩
  · rw [eval_displacement_eq A A w h pd (0, 0) hA hA, hz, Dist.sqrt_zero]
  · simp only [Surd.sqrt, max_self]
  · simp only [Surd.toReal, Surd.sqrt, max_self, Rat.cast_zero, Real.sqrt_zero]

/-- Witness of C9: a 2x2 one-channel image. -/
theorem eval_displacement_self_witness :
    ∃ s, eval_displacement [1, 2, 3, 4] [1, 2, 3, 4] 2 2 1 (0, 0) = some (Dist.fin s) ∧
      s.radicand = 0 ∧ s.toReal = 0 :=
  eval_displacement_self [1, 2, 3, 4] 2 2 1 (by decide) (by decide) (by decide) (by decide)
    (fun v hv => by
      simp only [List.mem_cons, List.mem_singleton, List.not_mem_nil, or_false] at hv
      rcases hv with rfl | rfl | rfl | rfl
      · exact ⟨1, rfl⟩
      · exact ⟨2, by show Fl.fin ((2 : Nat) : ℚ) = _; norm_num⟩
      · exact ⟨3, by show Fl.fin ((3 : Nat) : ℚ) = _; norm_num⟩
      · exact ⟨4, by show Fl.fin ((4 : Nat) : ℚ) = _; norm_num⟩)
    (by decide)

/-- C9 fails as stated: on the 1x1 one-channel image whose sample is NaN the difference
`a - a` is NaN and `eval_displacement(A, A, 1, 1, 1, (0,0))` returns NaN, not `0`. -/
theorem eval_displacement_self_fails :
    eval_displacement [Fl.nan] [Fl.nan] 1 1 1 (0, 0) = some Dist.nan := by
  decide!
/-! ## The local optimisation -/

theorem Surd.toReal_le {a b : Surd} (h : a.radicand ≤ b.radicand) : a.toReal ≤ b.toReal :=
  Real.sqrt_le_sqrt (by exact_mod_cast h)

theorem Surd.toReal_lt {a b : Surd} (h : a.radicand < b.radicand) : a.toReal < b.toReal :=
  Real.sqrt_lt_sqrt (by exact_mod_cast a.nonneg) (by exact_mod_cast h)

theorem sampleV_translate (y x B : Buffer) (dx dy w h pd : Int)
    (hx : (x.length : Int) = w * h * pd) (hy : (y.length : Int) = w * h * pd)
    (hB : apply_translation y dx dy x w h pd = some B) :
    (B.length : Int) = w * h * pd ∧
      ∀ i j l, sampleV B w h pd i j l =
        if 0 ≤ i ∧ i < w ∧ 0 ≤ j ∧ j < h ∧ 0 ≤ l ∧ l < pd then
          sampleV x w h pd (i - dx) (j - dy) l
        else 0 := by
  obtain ⟨y', h1, h2, h3⟩ := apply_translation_spec y x dx dy w h pd hx hy
  rw [hB] at h1
  have e : B = y' := Option.some.inj h1
  subst e
  refine ⟨by rw [h2]; exact hy, fun i j l => ?_⟩
  by_cases hr : 0 ≤ i ∧ i < w ∧ 0 ≤ j ∧ j < h ∧ 0 ≤ l ∧ l < pd
  · obtain ⟨hi, hiw, hj, hjh, hl, hlp⟩ := hr
    have e : pd * (j * w + i) + l = (j * w + i) * pd + l := by ring
    simp only [sampleV, getsample_0_of_inside B hi hiw hj hjh hl hlp, e,
      h3 i j l hi hiw hj hjh hl hlp, Option.getD_some]
    simp [hi, hiw, hj, hjh, hl, hlp, sampleV]
  · simp only [sampleV, getsample_0_of_outside B hr, Option.getD_some, hr, if_false]

theorem zoom_size_ok_iff (ow iw : Int)
    (h2 : -2147483648 < 2 * ow - iw ∧ 2 * ow - iw ≤ 2147483647) :
    zoom_size_ok ow iw = true ↔ (ow = iw / 2 ∨ ow = (iw + 1) / 2) := by
  simp only [zoom_size_ok, decide_eq_true_eq, abs_int, wrap32]
  split <;> omega

/-- The size test passes when `2*ow - iw` is `INT_MIN`, whose `abs` is `INT_MIN`. -/
theorem zoom_size_ok_int_min : zoom_size_ok (-1) 2147483646 = true := by
  decide

/-- C19 (Reducer assertions hold inside the search): for all integers `w`, `h`, the sizes
`ws = ceil(w/2.0)`, `hs = ceil(h/2.0)` passed by `find_displacement` satisfy
`|2*ws - w| < 2` and `|2*hs - h| < 2`; both assertions of `zoom_out_by_factor_two` pass on
these calls, which run the loop nest. -/
theorem reducer_asserts_hold (w h : Int) :
    |2 * ⌈(w : ℚ) / 2⌉ - w| < 2 ∧ |2 * ⌈(h : ℚ) / 2⌉ - h| < 2 ∧
    zoom_size_ok ⌈(w : ℚ) / 2⌉ w = true ∧ zoom_size_ok ⌈(h : ℚ) / 2⌉ h = true ∧
    ∀ (out inp : Buffer) (pd : Int),
      zoom_out_by_factor_two out ⌈(w : ℚ) / 2⌉ ⌈(h : ℚ) / 2⌉ inp w h pd =
        fill out ⌈(w : ℚ) / 2⌉ ⌈(h : ℚ) / 2⌉ pd (fun i j l => zoom_pixel inp w h pd i j l)
          (fun i j l => (⌈(w : ℚ) / 2⌉ * j + i) * pd + l) := by
  refine ⟨?_, ?_, zoom_size_ok_half w, zoom_size_ok_half h, fun out inp pd =>
    zoom_eq_fill out _ _ inp w h pd (zoom_size_ok_half w) (zoom_size_ok_half h)⟩
  · rw [ceil_half, abs_lt]; omega
  · rw [ceil_half, abs_lt]; omega

/-- C20, as amended (Size check of the reducer): for `int`s `iw`, `ow` whose difference
`2*ow - iw` is above `INT_MIN` and at most `INT_MAX` (neither the difference nor its `abs`
overflows), the assertion `abs(2*ow - iw) < 2` passes exactly when `ow = floor(iw/2)` or
`ow = ceil(iw/2)`; for odd `iw` the floor differs from the ceiling and is accepted too;
for every other size the function aborts. -/
theorem reducer_size_check (iw ow : Int)
    (h2 : -2147483648 < 2 * ow - iw ∧ 2 * ow - iw ≤ 2147483647) :
    (zoom_size_ok ow iw = true ↔ (ow = iw / 2 ∨ ow = ⌈(iw : ℚ) / 2⌉)) ∧
    (iw % 2 = 1 → iw / 2 ≠ ⌈(iw : ℚ) / 2⌉ ∧ zoom_size_ok (iw / 2) iw = true) ∧
    (¬ (ow = iw / 2 ∨ ow = ⌈(iw : ℚ) / 2⌉) →
      ∀ (out inp : Buffer) (oh ih pd : Int),
        zoom_out_by_factor_two out ow oh inp iw ih pd = none) := by
  rw [ceil_half]
  refine ⟨zoom_size_ok_iff ow iw h2, fun hodd => ⟨by omega, ?_⟩,
    fun hne out inp oh ih pd => ?_⟩
  · rw [zoom_size_ok_iff _ _ (by omega)]; exact Or.inl rfl
  · have : zoom_size_ok ow iw = false := by
      rw [← Bool.not_eq_true, zoom_size_ok_iff ow iw h2]; exact hne
    simp [zoom_out_by_factor_two, this]

/-- Witness of C20 as amended: input width `5`, output width `2`. -/
theorem reducer_size_check_witness :
    (zoom_size_ok 2 5 = true ↔ ((2 : Int) = 5 / 2 ∨ (2 : Int) = ⌈((5 : Int) : ℚ) / 2⌉)) ∧
    ((5 : Int) % 2 = 1 → (5 : Int) / 2 ≠ ⌈((5 : Int) : ℚ) / 2⌉ ∧
      zoom_size_ok (5 / 2) 5 = true) ∧
    (¬ ((2 : Int) = 5 / 2 ∨ (2 : Int) = ⌈((5 : Int) : ℚ) / 2⌉) →
      ∀ (out inp : Buffer) (oh ih pd : Int),
        zoom_out_by_factor_two out 2 oh inp 5 ih pd = none) :=
  reducer_size_check 5 2 (by decide)

/-- C20 fails as stated: for `ow = 2^30` and `iw = -2^31` the `int` product `2*ow` wraps
to `-2^31`, the difference is `0` and the assertion passes, although `ow` is neither
`floor(iw/2)` nor `ceil(iw/2)` (both are `-2^30`). -/
theorem reducer_size_check_fails :
    zoom_size_ok 1073741824 (-2147483648) = true ∧
    ¬ ((1073741824 : Int) = -2147483648 / 2 ∨
      (1073741824 : Int) = ⌈((-2147483648 : Int) : ℚ) / 2⌉) := by
  decide!

/-! ## The normalisation count -/

theorem eval_sum_eq_loop (A B : Buffer) (w h pd : Int) (d : Int × Int) :
    eval_sum A B w h pd d
      = eval_loop w h pd (0 : Fl) (eval_term A B w h pd d (npoints w h pd)) := rfl

theorem cfor_count (body : Nat → Int → Option Nat) (m : Nat) (lo hi : Int) (c0 : Nat)
    (hbody : ∀ c k, lo ≤ k → k < hi → body c k = some (c + m)) :
    cfor lo hi c0 body = some (c0 + (hi - lo).toNat * m) := by
  by_cases hle : lo ≤ hi
  · obtain ⟨c, h1, h2⟩ := cfor_inv body (fun k c => c = c0 + (k - lo).toNat * m)
      lo hi c0 hle (by simp) (by
        intro k c hk1 hk2 hc
        refine ⟨c + m, hbody c k hk1 hk2, ?_⟩
        have e : (k + 1 - lo).toNat = (k - lo).toNat + 1 := by omega
        show c + m = c0 + (k + 1 - lo).toNat * m
        rw [e, hc]; ring)
    rw [h1, h2]
  · have e : (hi - lo).toNat = 0 := by omega
    rw [cfor_empty _ _ _ _ (by omega), e]; simp

theorem eval_count_eq (w h pd : Int) :
    eval_count w h pd = some ((h - Int.tdiv h 16 - Int.tdiv h 16).toNat
      * ((w - Int.tdiv w 16 - Int.tdiv w 16).toNat * pd.toNat)) := by
  have inner : ∀ (c : Nat) (i j : Int),
      (cfor 0 pd c fun c l => (fun c (_ _ _ : Int) => some (c + 1)) c i j l)
        = some (c + pd.toNat) := by
    intro c i j
    have := cfor_count (fun c _ => some (c + 1)) 1 0 pd c (fun _ _ _ _ => rfl)
    simpa using this
  have mid : ∀ (c : Nat) (j : Int),
      (cfor (Int.tdiv w 16) (w - Int.tdiv w 16) c fun c i =>
        cfor 0 pd c fun c l => (fun c (_ _ _ : Int) => some (c + 1)) c i j l)
        = some (c + (w - Int.tdiv w 16 - Int.tdiv w 16).toNat * pd.toNat) :=
    fun c j => cfor_count _ pd.toNat _ _ c (fun c i _ _ => inner c i j)
  have outer := cfor_count (fun c j => cfor (Int.tdiv w 16) (w - Int.tdiv w 16) c fun c i =>
        cfor 0 pd c fun c l => (fun c (_ _ _ : Int) => some (c + 1)) c i j l)
      ((w - Int.tdiv w 16 - Int.tdiv w 16).toNat * pd.toNat)
      (Int.tdiv h 16) (h - Int.tdiv h 16) 0 (fun c j _ _ => mid c j)
  rw [zero_add] at outer
  exact outer

theorem window_sizes {w : Int} (hw : 0 ≤ w) :
    Int.tdiv w 16 = w / 16 ∧ 0 ≤ w / 16 ∧ 0 ≤ w - 2 * (w / 16) ∧ (1 ≤ w → 1 ≤ w - 2 * (w / 16)) := by
  refine ⟨Int.tdiv_eq_ediv hw (by norm_num), by omega, by omega, fun _ => by omega⟩

/-- C17, as amended (Cropped window is never empty): for `w, h, pd ≥ 1`,
`w - 2*floor(w/16) ≥ 1` and `h - 2*floor(h/16) ≥ 1`; when moreover the product
`(w - 2*floor(w/16)) * (h - 2*floor(h/16)) * pd` is at most `INT_MAX`, `npoints ≥ 1`: the
divisor `1.0 * npoints` of `eval_displacement` is positive, and the loop nest runs at
least once. -/
theorem window_nonempty (w h pd : Int) (hw : 1 ≤ w) (hh : 1 ≤ h) (hp : 1 ≤ pd)
    (hn : (w - 2 * (w / 16)) * (h - 2 * (h / 16)) * pd ≤ 2147483647) :
    1 ≤ w - 2 * (w / 16) ∧ 1 ≤ h - 2 * (h / 16) ∧ 1 ≤ npoints w h pd ∧
    (0 : ℚ) < 1 * ((npoints w h pd : Int) : ℚ) ∧
    (spec_window w h pd).Nonempty ∧
    ∃ n : Nat, eval_count w h pd = some n ∧ 1 ≤ n := by
  obtain ⟨ew, _, _, hw1⟩ := window_sizes (show 0 ≤ w by omega)
  obtain ⟨eh, _, _, hh1⟩ := window_sizes (show 0 ≤ h by omega)
  have h1 := hw1 hw
  have h2 := hh1 hh
  have hpos : 1 ≤ npoints w h pd := npoints_pos hw hh hp hn
  refine ⟨h1, h2, hpos, ?_, ?_, _, eval_count_eq w h pd, ?_⟩
  · rw [one_mul]; exact_mod_cast (show (0 : Int) < npoints w h pd by omega)
  · refine ⟨(w / 16, h / 16, 0), ?_⟩
    simp only [spec_window, Finset.mem_product, Finset.mem_Ico]
    omega
  · rw [ew, eh]
    have a1 : 1 ≤ (h - h / 16 - h / 16).toNat := by omega
    have a2 : 1 ≤ (w - w / 16 - w / 16).toNat := by omega
    have a3 : 1 ≤ pd.toNat := by omega
    exact Nat.mul_le_mul a1 (Nat.mul_le_mul a2 a3)

/-- Witness of C17: a 1x1 image with one channel. -/
theorem window_nonempty_witness :
    (1 : Int) ≤ 1 - 2 * (1 / 16) ∧ (1 : Int) ≤ 1 - 2 * (1 / 16) ∧ 1 ≤ npoints 1 1 1 ∧
    (0 : ℚ) < 1 * ((npoints 1 1 1 : Int) : ℚ) ∧
    (spec_window 1 1 1).Nonempty ∧
    ∃ n : Nat, eval_count 1 1 1 = some n ∧ 1 ≤ n :=
  window_nonempty 1 1 1 (by decide) (by decide) (by decide) (by decide)

/-- C17 fails as stated: for `w = 2`, `h = 1`, `pd = 2^30` (all at least `1`) the `int`
product `npoints` is `-2^31`, a negative divisor. -/
theorem window_nonempty_fails :
    (1 : Int) ≤ 2 ∧ (1 : Int) ≤ 1 ∧ (1 : Int) ≤ 1073741824 ∧
    npoints 2 1 1073741824 = -2147483648 ∧ ¬ (1 ≤ npoints 2 1 1073741824) := by
  decide
/-! ## The cells written by the store loop nests -/

theorem forLoop_map_fst {σ τ : Type} (bodyT : σ × τ → Int → Option (σ × τ))
    (body : σ → Int → Option σ)
    (h : ∀ s k, Option.map Prod.fst (bodyT s k) = body s.1 k) :
    ∀ (n : Nat) (k : Int) (s : σ × τ),
      Option.map Prod.fst (forLoop bodyT n k s) = forLoop body n k s.1 := by
  intro n
  induction n with
  | zero => intro k s; rfl
  | succ n ih =>
    intro k s
    have hs := h s k
    cases hb : bodyT s k with
    | none =>
      rw [hb] at hs
      simp only [forLoop, hb, ← hs, Option.map_none']
    | some s' =>
      rw [hb] at hs
      simp only [forLoop, hb, ← hs, Option.map_some']
      exact ih (k + 1) s'

theorem cfor_map_fst {σ τ : Type} (bodyT : σ × τ → Int → Option (σ × τ))
    (body : σ → Int → Option σ)
    (h : ∀ s k, Option.map Prod.fst (bodyT s k) = body s.1 k) (lo hi : Int) (s : σ × τ) :
    Option.map Prod.fst (cfor lo hi s bodyT) = cfor lo hi s.1 body :=
  forLoop_map_fst bodyT body h _ lo s

theorem fill_traced_fst (y : Buffer) (w h pd : Int) (val : Int → Int → Int → Option Fl)
    (idx : Int → Int → Int → Int) :
    Option.map Prod.fst (fill_traced y w h pd val idx) = fill y w h pd val idx := by
  refine cfor_map_fst _ _ (fun s j => ?_) 0 h (y, [])
  refine cfor_map_fst _ _ (fun s i => ?_) 0 w s
  refine cfor_map_fst _ _ (fun s l => ?_) 0 pd s
  cases val i j l with
  | none => rfl
  | some v =>
    cases hst : store s.1 (idx i j l) v with
    | none => simp only [hst, Option.map_none']
    | some y' => simp only [hst, Option.map_some']

theorem range_cells_succ {c : Int} (hc : 0 ≤ c) :
    (List.range c.toNat).map (fun n : Nat => (n : Int)) ++ [c]
      = (List.range (c + 1).toNat).map (fun n : Nat => (n : Int)) := by
  have e : (c + 1).toNat = c.toNat + 1 := by omega
  have e2 : ((c.toNat : Nat) : Int) = c := by omega
  rw [e, List.range_succ, List.map_append, List.map_singleton, e2]

theorem fill_traced_cells (y : Buffer) (w h pd : Int) (val : Int → Int → Int → Option Fl)
    (idx : Int → Int → Int → Int) (f : Int → Int → Int → Fl)
    (hw : 0 ≤ w) (hh : 0 ≤ h) (hp : 0 ≤ pd)
    (hy : (y.length : Int) = w * h * pd)
    (hidx : ∀ i j l, idx i j l = (j * w + i) * pd + l)
    (hval : ∀ i j l, 0 ≤ i → i < w → 0 ≤ j → j < h → 0 ≤ l → l < pd →
      val i j l = some (f i j l)) :
    ∃ y', fill_traced y w h pd val idx
      = some (y', (List.range (w * h * pd).toNat).map (fun n : Nat => (n : Int))) := by
  let Inv : Int → Buffer × List Int → Prop := fun c s =>
    (s.1.length : Int) = w * h * pd ∧ s.2 = (List.range c.toNat).map (fun n : Nat => (n : Int))
  have inner : ∀ (s : Buffer × List Int) (i j : Int), 0 ≤ i → i < w → 0 ≤ j → j < h →
      Inv ((j * w + i) * pd) s →
      ∃ s', (cfor 0 pd s fun s l =>
        match val i j l with
        | none => none
        | some v =>
          match store s.1 (idx i j l) v with
          | none => none
          | some y' => some (y', s.2 ++ [idx i j l])) = some s' ∧
        Inv ((j * w + (i + 1)) * pd) s' := by
    intro s i j hi hiw hj hjh hInv
    obtain ⟨s', h1, h2⟩ := cfor_inv (fun s l =>
        match val i j l with
        | none => none
        | some v =>
          match store s.1 (idx i j l) v with
          | none => none
          | some y' => some (y', s.2 ++ [idx i j l]))
        (fun l u => Inv ((j * w + i) * pd + l) u) 0 pd s hp (by simpa using hInv) (by
      intro l u hl hlp ⟨hlen, hu⟩
      have hc0 : 0 ≤ (j * w + i) * pd + l := index_nonneg hi hiw hj hl hlp
      have hc1 : (j * w + i) * pd + l < (u.1.length : Int) := by
        rw [hlen]; exact index_lt hi hiw hjh hl hlp
      refine ⟨(u.1.set ((j * w + i) * pd + l).toNat (f i j l),
        u.2 ++ [(j * w + i) * pd + l]), ?_, ?_, ?_⟩
      · simp only [hval i j l hi hiw hj hjh hl hlp, hidx, store_eq_some _ hc0 hc1]
      · simp [hlen]
      · show u.2 ++ [(j * w + i) * pd + l] = _
        rw [hu, range_cells_succ hc0, add_assoc])
    refine ⟨s', h1, ?_⟩
    have : (j * w + (i + 1)) * pd = (j * w + i) * pd + pd := by ring
    rw [this]; exact h2
  have mid : ∀ (s : Buffer × List Int) (j : Int), 0 ≤ j → j < h → Inv (j * w * pd) s →
      ∃ s', (cfor 0 w s fun s i => cfor 0 pd s fun s l =>
        match val i j l with
        | none => none
        | some v =>
          match store s.1 (idx i j l) v with
          | none => none
          | some y' => some (y', s.2 ++ [idx i j l])) = some s' ∧
        Inv ((j + 1) * w * pd) s' := by
    intro s j hj hjh hInv
    obtain ⟨s', h1, h2⟩ := cfor_inv (fun s i => cfor 0 pd s fun s l =>
        match val i j l with
        | none => none
        | some v =>
          match store s.1 (idx i j l) v with
          | none => none
          | some y' => some (y', s.2 ++ [idx i j l]))
        (fun i u => Inv ((j * w + i) * pd) u) 0 w s hw (by simpa using hInv)
        (fun i u hi hiw hu => inner u i j hi hiw hj hjh hu)
    refine ⟨s', h1, ?_⟩
    have : (j + 1) * w * pd = (j * w + w) * pd := by ring
    rw [this]; exact h2
  obtain ⟨s', h1, h2, h3⟩ := cfor_inv (fun s j => cfor 0 w s fun s i => cfor 0 pd s fun s l =>
        match val i j l with
        | none => none
        | some v =>
          match store s.1 (idx i j l) v with
          | none => none
          | some y' => some (y', s.2 ++ [idx i j l]))
        (fun j u => Inv (j * w * pd) u) 0 h (y, []) hh ⟨hy, by simp⟩
        (fun j u hj hjh hu => mid u j hj hjh hu)
  refine ⟨s'.1, ?_⟩
  have e : h * w * pd = w * h * pd := by ring
  rw [e] at h3
  rw [← h3]
  exact h1

theorem cells_count {N : Nat} {c : Int} (h0 : 0 ≤ c) (h1 : c < N) :
    List.count c ((List.range N).map (fun n : Nat => (n : Int))) = 1 := by
  have hinj : Function.Injective (fun n : Nat => (n : Int)) := fun a b hab => by
    simpa using hab
  have hnd : ((List.range N).map (fun n : Nat => (n : Int))).Nodup :=
    (List.nodup_range N).map hinj
  apply List.count_eq_one_of_mem hnd
  rw [List.mem_map]
  exact ⟨c.toNat, List.mem_range.mpr (by omega), by simp; omega⟩

theorem cells_mem {N : Nat} {c : Int}
    (h : c ∈ (List.range N).map (fun n : Nat => (n : Int))) : 0 ≤ c ∧ c < N := by
  rw [List.mem_map] at h
  obtain ⟨n, hn, rfl⟩ := h
  rw [List.mem_range] at hn
  omega
theorem traced_cells_once {N : Int} (hN : 0 ≤ N) :
    (∀ c, 0 ≤ c → c < N →
      List.count c ((List.range N.toNat).map (fun n : Nat => (n : Int))) = 1) ∧
    (∀ c ∈ (List.range N.toNat).map (fun n : Nat => (n : Int)), 0 ≤ c ∧ c < N) := by
  refine ⟨fun c h0 h1 => cells_count h0 (by omega), fun c hc => ?_⟩
  have := cells_mem hc
  omega

theorem apply_translation_traced_spec (y x : Buffer) (dx dy w h pd : Int)
    (hw : 0 ≤ w) (hh : 0 ≤ h) (hp : 0 ≤ pd)
    (hx : (x.length : Int) = w * h * pd) (hy : (y.length : Int) = w * h * pd) :
    ∃ y', apply_translation_traced y dx dy x w h pd
        = some (y', (List.range (w * h * pd).toNat).map (fun n : Nat => (n : Int))) ∧
      apply_translation y dx dy x w h pd = some y' := by
  obtain ⟨y', h1⟩ := fill_traced_cells y w h pd
    (fun i j l => getsample_0 x w h pd (i - dx) (j - dy) l) (fun i j l => (j * w + i) * pd + l)
    (fun i j l => sampleV x w h pd (i - dx) (j - dy) l) hw hh hp hy (fun _ _ _ => rfl)
    (fun i j l _ _ _ _ _ _ => getsample_0_eq_some x w h pd _ _ _ hx)
  refine ⟨y', h1, ?_⟩
  rw [apply_translation_eq_fill, ← fill_traced_fst, h1]
  rfl

theorem zoom_out_traced_spec (out inp : Buffer) (ow oh iw ih pd : Int)
    (hw : 0 ≤ ow) (hh : 0 ≤ oh) (hp : 0 ≤ pd)
    (hin : (inp.length : Int) = iw * ih * pd) (hout : (out.length : Int) = ow * oh * pd)
    (haw : zoom_size_ok ow iw = true) (hah : zoom_size_ok oh ih = true) :
    ∃ out', zoom_out_traced out ow oh inp iw ih pd
        = some (out', (List.range (ow * oh * pd).toNat).map (fun n : Nat => (n : Int))) ∧
      zoom_out_by_factor_two out ow oh inp iw ih pd = some out' := by
  obtain ⟨out', h1⟩ := fill_traced_cells out ow oh pd
    (fun i j l => zoom_pixel inp iw ih pd i j l) (fun i j l => (ow * j + i) * pd + l)
    (fun i j l => ((((sampleV inp iw ih pd (2 * i) (2 * j) l).fadd
            (sampleV inp iw ih pd (2 * i + 1) (2 * j) l)).fadd
            (sampleV inp iw ih pd (2 * i) (2 * j + 1) l)).fadd
            (sampleV inp iw ih pd (2 * i + 1) (2 * j + 1) l)).fdiv 4) hw hh hp hout
    (fun i j l => by ring) (fun i j l _ _ _ _ _ _ => zoom_pixel_eq_some inp iw ih pd i j l hin)
  refine ⟨out', ?_, ?_⟩
  · simp only [zoom_out_traced, haw, hah, not_true_eq_false, if_false, h1]
  · rw [zoom_eq_fill out ow oh inp iw ih pd haw hah, ← fill_traced_fst, h1]
    rfl

theorem wrap32_id {x : Int} (h0 : 0 ≤ x) (h1 : x ≤ 2147483647) : wrap32 x = x := by
  unfold wrap32
  omega

/-- On an image of at most `INT_MAX` samples the `int` evaluation of the two flat index
expressions does not overflow. -/
theorem flat_index_int_eq {w h pd i j l : Int} (hN : w * h * pd ≤ 2147483647)
    (hi : 0 ≤ i) (hiw : i < w) (hj : 0 ≤ j) (hjh : j < h) (hl : 0 ≤ l) (hlp : l < pd) :
    flat_index_int w pd i j l = pd * (j * w + i) + l ∧
    store_index_int w pd i j l = (j * w + i) * pd + l := by
  have hw : 0 < w := by omega
  have hp : 0 < pd := by omega
  have h1 : 0 ≤ j * w := mul_nonneg hj hw.le
  have h2 : j * w + i < h * w := by nlinarith
  have h3 : (j * w + i) * pd + l < w * h * pd := index_lt hi hiw hjh hl hlp
  have h4 : 0 ≤ (j * w + i) * pd := mul_nonneg (by omega) hp.le
  have h5 : j * w + i ≤ (j * w + i) * pd := by nlinarith
  have h6 : j * w ≤ j * w + i := by omega
  have e : pd * (j * w + i) = (j * w + i) * pd := by ring
  have w1 : wrap32 (j * w) = j * w := wrap32_id h1 (by omega)
  have w2 : wrap32 (j * w + i) = j * w + i := wrap32_id (by omega) (by omega)
  have w3 : wrap32 ((j * w + i) * pd) = (j * w + i) * pd := wrap32_id h4 (by omega)
  have w4 : wrap32 ((j * w + i) * pd + l) = (j * w + i) * pd + l :=
    wrap32_id (by omega) (by omega)
  unfold flat_index_int store_index_int
  rw [w1, w2, e, w3, w4]
  exact ⟨rfl, rfl⟩

/-- C18, as amended (Index safety): for `w, h, pd ≥ 0` with `w*h*pd` at most `INT_MAX`
and `0 ≤ i < w`, `0 ≤ j < h`, `0 ≤ l < pd`, the `int` evaluation of the flat index
`pd*(j*w+i)+l` (and of `(j*w+i)*pd+l`) does not overflow, the index lies in `[0, w*h*pd)`
and distinct triples have distinct indices; the in-range read of `getsample_0` is inside
a buffer of `w*h*pd` samples; and `apply_translation` and `zoom_out_by_factor_two` (on an
input of at most `INT_MAX` samples) write every cell of their output of `w*h*pd` cells
exactly once, and no other cell. -/
theorem index_safety (w h pd : Int) (hw : 0 ≤ w) (hh : 0 ≤ h) (hp : 0 ≤ pd)
    (hmax : w * h * pd ≤ 2147483647) :
    (∀ i j l, 0 ≤ i → i < w → 0 ≤ j → j < h → 0 ≤ l → l < pd →
      flat_index_int w pd i j l = pd * (j * w + i) + l ∧
      store_index_int w pd i j l = (j * w + i) * pd + l ∧
      0 ≤ pd * (j * w + i) + l ∧ pd * (j * w + i) + l < w * h * pd) ∧
    (∀ i j l i' j' l', 0 ≤ i → i < w → 0 ≤ j → j < h → 0 ≤ l → l < pd →
      0 ≤ i' → i' < w → 0 ≤ j' → j' < h → 0 ≤ l' → l' < pd →
      flat_index_int w pd i j l = flat_index_int w pd i' j' l' → i = i' ∧ j = j' ∧ l = l') ∧
    (∀ x : Buffer, (x.length : Int) = w * h * pd →
      ∀ i j l, 0 ≤ i → i < w → 0 ≤ j → j < h → 0 ≤ l → l < pd →
        ∃ v, load x (flat_index_int w pd i j l) = some v ∧
          getsample_0 x w h pd i j l = some v) ∧
    (∀ (y x : Buffer) (dx dy : Int), (x.length : Int) = w * h * pd →
      (y.length : Int) = w * h * pd →
      ∃ y' cells, apply_translation_traced y dx dy x w h pd = some (y', cells) ∧
        apply_translation y dx dy x w h pd = some y' ∧
        (∀ c, 0 ≤ c → c < w * h * pd → cells.count c = 1) ∧
        (∀ c ∈ cells, 0 ≤ c ∧ c < w * h * pd)) ∧
    (∀ (out inp : Buffer) (iw ih : Int), (inp.length : Int) = iw * ih * pd →
      iw * ih * pd ≤ 2147483647 →
      (out.length : Int) = w * h * pd → zoom_size_ok w iw = true → zoom_size_ok h ih = true →
      ∃ out' cells, zoom_out_traced out w h inp iw ih pd = some (out', cells) ∧
        zoom_out_by_factor_two out w h inp iw ih pd = some out' ∧
        (∀ c, 0 ≤ c → c < w * h * pd → cells.count c = 1) ∧
        (∀ c ∈ cells, 0 ≤ c ∧ c < w * h * pd)) := by
  have hN : 0 ≤ w * h * pd := mul_nonneg (mul_nonneg hw hh) hp
  have e : ∀ i j l : Int, pd * (j * w + i) + l = (j * w + i) * pd + l := fun i j l => by ring
  refine ⟨?_, ?_, ?_, ?_, ?_⟩
  · intro i j l hi hiw hj hjh hl hlp
    refine ⟨(flat_index_int_eq hmax hi hiw hj hjh hl hlp).1,
      (flat_index_int_eq hmax hi hiw hj hjh hl hlp).2, ?_⟩
    rw [e]
    exact ⟨index_nonneg hi hiw hj hl hlp, index_lt hi hiw hjh hl hlp⟩
  · intro i j l i' j' l' hi hiw hj hjh hl hlp hi' hiw' hj' hjh' hl' hlp' heq
    rw [(flat_index_int_eq hmax hi hiw hj hjh hl hlp).1,
      (flat_index_int_eq hmax hi' hiw' hj' hjh' hl' hlp').1, e, e] at heq
    exact index_inj hi hiw hl hlp hi' hiw' hl' hlp' heq
  · intro x hx i j l hi hiw hj hjh hl hlp
    rw [(flat_index_int_eq hmax hi hiw hj hjh hl hlp).1]
    have h0 : 0 ≤ pd * (j * w + i) + l := by rw [e]; exact index_nonneg hi hiw hj hl hlp
    have h1 : pd * (j * w + i) + l < x.length := by
      rw [e, hx]; exact index_lt hi hiw hjh hl hlp
    obtain ⟨v, hv, _⟩ := load_eq_some h0 h1
    exact ⟨v, hv, by rw [getsample_0_of_inside x hi hiw hj hjh hl hlp, hv]⟩
  · intro y x dx dy hx hy
    obtain ⟨y', h1, h2⟩ := apply_translation_traced_spec y x dx dy w h pd hw hh hp hx hy
    exact ⟨y', _, h1, h2, (traced_cells_once hN).1, (traced_cells_once hN).2⟩
  · intro out inp iw ih hin _ hout haw hah
    obtain ⟨out', h1, h2⟩ := zoom_out_traced_spec out inp w h iw ih pd hw hh hp hin hout
      haw hah
    exact ⟨out', _, h1, h2, (traced_cells_once hN).1, (traced_cells_once hN).2⟩

/-- Witness of C18: images of 2x1 pixels with one channel. -/
theorem index_safety_witness :
    (∀ i j l, 0 ≤ i → i < 2 → 0 ≤ j → j < 1 → 0 ≤ l → l < 1 →
      flat_index_int 2 1 i j l = 1 * (j * 2 + i) + l ∧
      store_index_int 2 1 i j l = (j * 2 + i) * 1 + l ∧
      0 ≤ (1 : Int) * (j * 2 + i) + l ∧ (1 : Int) * (j * 2 + i) + l < 2 * 1 * 1) ∧
    (∀ i j l i' j' l', 0 ≤ i → i < 2 → 0 ≤ j → j < 1 → 0 ≤ l → l < 1 →
      0 ≤ i' → i' < 2 → 0 ≤ j' → j' < 1 → 0 ≤ l' → l' < 1 →
      flat_index_int 2 1 i j l = flat_index_int 2 1 i' j' l' → i = i' ∧ j = j' ∧ l = l') ∧
    (∀ x : Buffer, (x.length : Int) = 2 * 1 * 1 →
      ∀ i j l, 0 ≤ i → i < 2 → 0 ≤ j → j < 1 → 0 ≤ l → l < 1 →
        ∃ v, load x (flat_index_int 2 1 i j l) = some v ∧
          getsample_0 x 2 1 1 i j l = some v) ∧
    (∀ (y x : Buffer) (dx dy : Int), (x.length : Int) = 2 * 1 * 1 →
      (y.length : Int) = 2 * 1 * 1 →
      ∃ y' cells, apply_translation_traced y dx dy x 2 1 1 = some (y', cells) ∧
        apply_translation y dx dy x 2 1 1 = some y' ∧
        (∀ c, 0 ≤ c → c < 2 * 1 * 1 → cells.count c = 1) ∧
        (∀ c ∈ cells, 0 ≤ c ∧ c < 2 * 1 * 1)) ∧
    (∀ (out inp : Buffer) (iw ih : Int), (inp.length : Int) = iw * ih * 1 →
      iw * ih * 1 ≤ 2147483647 →
      (out.length : Int) = 2 * 1 * 1 → zoom_size_ok 2 iw = true → zoom_size_ok 1 ih = true →
      ∃ out' cells, zoom_out_traced out 2 1 inp iw ih 1 = some (out', cells) ∧
        zoom_out_by_factor_two out 2 1 inp iw ih 1 = some out' ∧
        (∀ c, 0 ≤ c → c < 2 * 1 * 1 → cells.count c = 1) ∧
        (∀ c ∈ cells, 0 ≤ c ∧ c < 2 * 1 * 1)) :=
  index_safety 2 1 1 (by decide) (by decide) (by decide) (by decide)

/-- C18 fails as stated: in a 53000x53000 one-channel image the pixel `(0, 52999)` is in
range, but the `int` product `j*w = 2808947000` exceeds `INT_MAX` and the flat index
evaluates to `-1486020296`, outside `[0, w*h*pd)`. -/
theorem index_safety_fails :
    ((0 : Int) ≤ 0 ∧ (0 : Int) < 53000 ∧ (0 : Int) ≤ 52999 ∧ (52999 : Int) < 53000 ∧
      (0 : Int) ≤ 0 ∧ (0 : Int) < 1) ∧
    flat_index_int 53000 1 0 52999 0 = -1486020296 ∧
    ¬ (0 ≤ flat_index_int 53000 1 0 52999 0) := by
  decide
/-- C16, as amended (Translate-then-match sign convention): for an image `A` of `w*h*pd`
finite samples (no NaN, no infinity) with `w*h*pd` at most `INT_MAX`, and a shift with
`|dx| ≤ floor(w/16)`, `|dy| ≤ floor(h/16)`,
`eval_displacement(A, apply_translation(A, dx, dy), (-dx,-dy))` returns `0`. -/
theorem translate_then_match (y A : Buffer) (dx dy w h pd : Int) (hp : 0 ≤ pd)
    (hA : (A.length : Int) = w * h * pd) (hy : (y.length : Int) = w * h * pd)
    (hfA : finite_samples A)
    (hmax : w * h * pd ≤ 2147483647)
    (hdx : |dx| ≤ w / 16) (hdy : |dy| ≤ h / 16) :
    ∃ B s, apply_translation y dx dy A w h pd = some B ∧
      eval_displacement A B w h pd (-dx, -dy) = some (Dist.fin s) ∧ s.radicand = 0 ∧
      s.toReal = 0 := by
  obtain ⟨B, hB, _⟩ := apply_translation_spec y A dx dy w h pd hA hy
  obtain ⟨hBl, hBv⟩ := sampleV_translate y A B dx dy w h pd hA hy hB
  rw [abs_le] at hdx hdy
  have hw : 0 ≤ w := by omega
  have hh : 0 ≤ h := by omega
  have hn := le_trans (window_le_size hw hh hp) hmax
  have ew : Int.tdiv w 16 = w / 16 := Int.tdiv_eq_ediv hw (by norm_num)
  have eh : Int.tdiv h 16 = h / 16 := Int.tdiv_eq_ediv hh (by norm_num)
  have hBq : ∀ i j l, sampleV B w h pd i j l
      = Fl.fin (if 0 ≤ i ∧ i < w ∧ 0 ≤ j ∧ j < h ∧ 0 ≤ l ∧ l < pd then
          sampleQ A w h pd (i - dx) (j - dy) l else 0) := by
    intro i j l
    rw [hBv]
    split
    · exact sampleV_finite A w h pd hfA _ _ _
    · rfl
  have hz : evalV (sampleV A w h pd) (sampleV B w h pd) w h pd (-dx, -dy) = Fl.fin 0 := by
    by_cases h0 : npoints w h pd = 0
    · rw [npoints_eq hw hh hp hn] at h0
      exact evalV_empty _ _ w h pd _ hw hh h0
    · rw [evalV_finite _ _ (sampleQ A w h pd) _ w h pd (-dx, -dy)
        (sampleV_finite A w h pd hfA) hBq h0]
      congr 1
      refine sumIco_zero _ _ _ (fun j hj1 hj2 => sumIco_zero _ _ _ (fun i hi1 hi2 =>
        sumIco_zero _ _ _ (fun l hl1 hl2 => ?_)))
      rw [ew] at hi1 hi2
      rw [eh] at hj1 hj2
      have hin : 0 ≤ i - -dx ∧ i - -dx < w ∧ 0 ≤ j - -dy ∧ j - -dy < h ∧ 0 ≤ l ∧ l < pd := by
        omega
      have e1 : i - -dx - dx = i := by ring
      have e2 : j - -dy - dy = j := by ring
      simp only [if_pos hin, e1, e2, sub_self, mul_zero, zero_div]
  refine ⟨B, Surd.sqrt 0, hB, ?_, ?_, ?_⟩
  · rw [eval_displacement_eq A B w h pd (-dx, -dy) hA hBl, hz, Dist.sqrt_zero]
  · simp only [Surd.sqrt, max_self]
  · simp only [Surd.toReal, Surd.sqrt, max_self, Rat.cast_zero, Real.sqrt_zero]

/-- Witness of C16: a 16x1 one-channel image shifted by `(1, 0)`. -/
theorem translate_then_match_witness :
    ∃ B s, apply_translation (malloc 16) 1 0
        (List.replicate 16 (Fl.fin 5)) 16 1 1 = some B ∧
      eval_displacement (List.replicate 16 (Fl.fin 5)) B 16 1 1
        (-1, -0) = some (Dist.fin s) ∧ s.radicand = 0 ∧ s.toReal = 0 :=
  translate_then_match (malloc 16) (List.replicate 16 (Fl.fin 5))
    1 0 16 1 1 (by decide) (by decide) (by decide) (finite_samples_replicate 16 5)
    (by decide) (by decide) (by decide)

/-- C16 fails as stated: on the 1x1 one-channel image whose sample is NaN, shifted by
`(0,0)`, the difference of the sample with itself is NaN and
`eval_displacement(A, apply_translation(A, 0, 0), (0,0))` returns NaN, not `0`. -/
theorem translate_then_match_fails :
    (|(0 : Int)| ≤ 1 / 16 ∧ |(0 : Int)| ≤ 1 / 16) ∧
    apply_translation [0] 0 0 [Fl.nan] 1 1 1 = some [Fl.nan] ∧
    eval_displacement [Fl.nan] [Fl.nan] 1 1 1 (-0, -0) = some Dist.nan := by
  decide!
/-! ## The recursion of the search -/

end Tcregistration
